import Mathlib

/-!
Shallow embedding of `src/library_converter.py` (a Roon "skipped files"
remediation tool: m4a/mp4 → flac conversion and flac repair) together with
proofs settling the frozen claims about it.

Modelling conventions:
* A `pathlib.Path` is a `PyPath`: parent directory components plus the
  `stem`/`suffix` decomposition that `pathlib` exposes (the suffix is the
  final dot-extension of the last name component, empty for dotfiles and
  extensionless names, exactly as in CPython's `PurePath.suffix`).
* The filesystem is an explicit state `FS`: a finite list of existing
  regular files and a finite list of existing directories.
* External effects (the ffmpeg exit code, whether an output file appeared,
  the ffprobe result of the output, and whether each `os.remove` call
  succeeds rather than raising) are supplied by explicit environment
  records; `safe_remove` swallows OS errors with a warning, so a failing
  remove leaves the filesystem unchanged.
* Python `float` durations are modelled as rationals.
-/

namespace LC

/-- A filesystem path as `pathlib` sees it: parent components, stem, suffix. -/
structure PyPath where
  dir : List String
  stem : String
  suffix : String
deriving DecidableEq, Repr

/-- The final name component (`Path.name`): stem concatenated with suffix. -/
def PyPath.name (p : PyPath) : String := p.stem ++ p.suffix

/-- Full component list of a path, used by `Path.resolve`/`relative_to`. -/
def PyPath.comps (p : PyPath) : List String := p.dir ++ [p.name]

/-- Python `Path.with_suffix`: replace the suffix, keep directory and stem. -/
def PyPath.with_suffix_ (p : PyPath) (suf : String) : PyPath :=
  ⟨p.dir, p.stem, suf⟩

/-- Filesystem state: the existing regular files and existing directories. -/
structure FS where
  files : List PyPath
  dirs : List PyPath
deriving DecidableEq, Repr

/-- Python `Path.exists()`: the path is an existing file or directory. -/
def fsExists (fs : FS) (p : PyPath) : Bool :=
  decide (p ∈ fs.files ∨ p ∈ fs.dirs)

/-- Python `Path.is_file()`: the path is an existing regular file. -/
def isFile (fs : FS) (p : PyPath) : Bool :=
  decide (p ∈ fs.files)

/-- Effect of creating a regular file at `p` (ffmpeg writing its output). -/
def addFile (fs : FS) (p : PyPath) : FS :=
  if p ∈ fs.files then fs else ⟨p :: fs.files, fs.dirs⟩

/-- Effect of a successful `os.remove p`. -/
def removeFile (fs : FS) (p : PyPath) : FS :=
  ⟨fs.files.filter (· ≠ p), fs.dirs⟩

/-- Total number of filesystem entries, used as a fuel bound. -/
def sizeFS (fs : FS) : Nat := fs.files.length + fs.dirs.length

/-! ### Decimal rendering of the collision counter

Python renders the counter `n` of the collision suffix in decimal via an
f-string; `decDigitsAux` computes the little-endian decimal digits with
structural fuel (fuel `n` suffices since `n / 10 < n` for positive `n`),
so that all definitions reduce in the kernel. -/

def decDigitsAux : Nat → Nat → List Nat
  | 0, _ => []
  | _ + 1, 0 => []
  | fuel + 1, n + 1 => ((n + 1) % 10) :: decDigitsAux fuel ((n + 1) / 10)

/-- Little-endian decimal digits of `n`. -/
def decDigits (n : Nat) : List Nat := decDigitsAux n n

/-- Decimal rendering of a positive natural (the collision counter `n ≥ 2`). -/
def natStr (n : Nat) : String := ⟨((decDigits n).map Nat.digitChar).reverse⟩

/-- Evaluation of a little-endian digit list back to a natural number. -/
def ofDigitsLE : List Nat → Nat
  | [] => 0
  | d :: ds => d + 10 * ofDigitsLE ds

theorem ofDigitsLE_decDigitsAux : ∀ fuel n, n ≤ fuel →
    ofDigitsLE (decDigitsAux fuel n) = n := by
  intro fuel
  induction fuel with
  | zero => intro n hn; interval_cases n; simp [decDigitsAux, ofDigitsLE]
  | succ f ih =>
    intro n hn
    match n with
    | 0 => simp [decDigitsAux, ofDigitsLE]
    | m + 1 =>
      have hdiv : (m + 1) / 10 < m + 1 := Nat.div_lt_self (Nat.succ_pos m) (by omega)
      have : (m + 1) / 10 ≤ f := by omega
      simp only [decDigitsAux, ofDigitsLE, ih _ this]
      omega

theorem ofDigitsLE_decDigits (n : Nat) : ofDigitsLE (decDigits n) = n :=
  ofDigitsLE_decDigitsAux n n (Nat.le_refl n)

theorem decDigitsAux_lt_ten : ∀ fuel n d, d ∈ decDigitsAux fuel n → d < 10 := by
  intro fuel
  induction fuel with
  | zero => intro n d hd; simp [decDigitsAux] at hd
  | succ f ih =>
    intro n d hd
    match n with
    | 0 => simp [decDigitsAux] at hd
    | m + 1 =>
      simp only [decDigitsAux, List.mem_cons] at hd
      rcases hd with h | h
      · omega
      · exact ih _ _ h

theorem digitChar_inj_lt : ∀ a < 10, ∀ b < 10, Nat.digitChar a = Nat.digitChar b → a = b := by
  decide

theorem map_digitChar_inj : ∀ (l₁ l₂ : List Nat), (∀ d ∈ l₁, d < 10) → (∀ d ∈ l₂, d < 10) →
    l₁.map Nat.digitChar = l₂.map Nat.digitChar → l₁ = l₂ := by
  intro l₁
  induction l₁ with
  | nil => intro l₂ _ _ h; cases l₂ <;> simp_all
  | cons a t ih =>
    intro l₂ h₁ h₂ h
    cases l₂ with
    | nil => simp_all
    | cons b t₂ =>
      simp only [List.map_cons, List.cons.injEq] at h
      have hab : a = b := by
        refine digitChar_inj_lt a ?_ b ?_ h.1
        · exact h₁ a (List.mem_cons_self a t)
        · exact h₂ b (List.mem_cons_self b t₂)
      have := ih t₂ (fun d hd => h₁ d (List.mem_cons_of_mem _ hd))
        (fun d hd => h₂ d (List.mem_cons_of_mem _ hd)) h.2
      simp [hab, this]

theorem natStr_inj {n m : Nat} (h : natStr n = natStr m) : n = m := by
  unfold natStr at h
  have hdata : (((decDigits n).map Nat.digitChar).reverse : List Char) =
      ((decDigits m).map Nat.digitChar).reverse := congrArg String.data h
  have hmap := List.reverse_injective hdata
  have hd : decDigits n = decDigits m :=
    map_digitChar_inj _ _ (fun d hd => decDigitsAux_lt_ten n n d hd)
      (fun d hd => decDigitsAux_lt_ten m m d hd) hmap
  have := congrArg ofDigitsLE hd
  rwa [ofDigitsLE_decDigits, ofDigitsLE_decDigits] at this

/-! ### The Naming Allocator (`unique_target_path`) -/

/-- The `target.with_name` call of the f-string: stem, a space, the counter in
parentheses, then the original suffix (the appended text is dot-free, so the
`pathlib` stem/suffix re-parse of the new name agrees with these fields). -/
def with_count_name (t : PyPath) (n : Nat) : PyPath :=
  ⟨t.dir, t.stem ++ " (" ++ natStr n ++ ")", t.suffix⟩

theorem with_count_name_inj {t : PyPath} {n m : Nat}
    (h : with_count_name t n = with_count_name t m) : n = m := by
  have hstem : t.stem ++ " (" ++ natStr n ++ ")" = t.stem ++ " (" ++ natStr m ++ ")" := by
    have := congrArg PyPath.stem h
    simpa [with_count_name] using this
  have hdata := congrArg String.data hstem
  simp only [String.data_append] at hdata
  have h₁ := List.append_cancel_right hdata
  have h₂ := List.append_cancel_left h₁
  exact natStr_inj (by cases hn : natStr n; cases hm : natStr m; simp_all)

/-- The `while True` search loop of `unique_target_path`, with structural
fuel; `exists_free_count` shows fuel `sizeFS fs + 1` always suffices, so
this equals the unbounded source loop. -/
def findFree (fs : FS) (t : PyPath) : Nat → Nat → PyPath
  | 0, n => with_count_name t n
  | fuel + 1, n =>
    if fsExists fs (with_count_name t n) then findFree fs t fuel (n + 1)
    else with_count_name t n

/-- Source `unique_target_path`: return the target unchanged if nothing exists
there, else append a counter starting at 2 until the name is free. -/
def unique_target_path (fs : FS) (target : PyPath) : PyPath :=
  if fsExists fs target then findFree fs target (sizeFS fs + 1) 2
  else target

theorem fsExists_iff {fs : FS} {p : PyPath} :
    fsExists fs p = true ↔ p ∈ fs.files ∨ p ∈ fs.dirs := by
  simp [fsExists]

/-- Pigeonhole: among any `sizeFS fs + 1` consecutive counter values, some
disambiguated name is absent from the filesystem. -/
theorem exists_free_count (fs : FS) (t : PyPath) (start : Nat) :
    ∃ k, k ≤ sizeFS fs ∧ fsExists fs (with_count_name t (start + k)) = false := by
  by_contra hcon
  push_neg at hcon
  have hall : ∀ k, k ≤ sizeFS fs → fsExists fs (with_count_name t (start + k)) = true := by
    intro k hk
    have := hcon k hk
    simpa [Bool.not_eq_false] using this
  set l := fs.files ++ fs.dirs with hl
  have hmem : ∀ k ∈ Finset.range (sizeFS fs + 1),
      with_count_name t (start + k) ∈ l.toFinset := by
    intro k hk
    rw [Finset.mem_range] at hk
    have := fsExists_iff.mp (hall k (by omega))
    rw [List.mem_toFinset, hl, List.mem_append]
    exact this
  have hinj : Set.InjOn (fun k => with_count_name t (start + k))
      (Finset.range (sizeFS fs + 1) : Finset ℕ) := by
    intro a _ b _ hab
    have := with_count_name_inj hab
    omega
  have hcard := Finset.card_le_card_of_injOn _ hmem hinj
  rw [Finset.card_range] at hcard
  have h2 := l.toFinset_card_le
  have h3 : l.length = sizeFS fs := by simp [hl, sizeFS]
  omega

theorem findFree_spec (fs : FS) (t : PyPath) : ∀ fuel start,
    (∃ k, k < fuel ∧ fsExists fs (with_count_name t (start + k)) = false) →
    ∃ k, k < fuel ∧ findFree fs t fuel start = with_count_name t (start + k) ∧
      fsExists fs (with_count_name t (start + k)) = false ∧
      ∀ j, j < k → fsExists fs (with_count_name t (start + j)) = true := by
  intro fuel
  induction fuel with
  | zero => intro start h; obtain ⟨k, hk, _⟩ := h; omega
  | succ f ih =>
    intro start h
    by_cases h0 : fsExists fs (with_count_name t start) = true
    · obtain ⟨k, hk, hfree⟩ := h
      have hkpos : k ≠ 0 := by
        intro h'; rw [h'] at hfree; simp at hfree; simp [hfree] at h0
      have hnext : ∃ k, k < f ∧ fsExists fs (with_count_name t (start + 1 + k)) = false := by
        refine ⟨k - 1, by omega, ?_⟩
        have : start + 1 + (k - 1) = start + k := by omega
        rw [this]; exact hfree
      obtain ⟨k', hk', heq, hfree', hmin'⟩ := ih (start + 1) hnext
      refine ⟨k' + 1, by omega, ?_, ?_, ?_⟩
      · simp only [findFree, h0, if_true]
        have : start + 1 + k' = start + (k' + 1) := by omega
        rw [← this]; exact heq
      · have : start + (k' + 1) = start + 1 + k' := by omega
        rw [this]; exact hfree'
      · intro j hj
        match j with
        | 0 => simpa using h0
        | j' + 1 =>
          have : start + (j' + 1) = start + 1 + j' := by omega
          rw [this]; exact hmin' j' (by omega)
    · refine ⟨0, by omega, ?_, ?_, ?_⟩
      · simp only [findFree, h0, if_false]
        simp
      · simpa using (Bool.not_eq_true _).mp h0
      · intro j hj; omega

/-- The allocator's result never exists on the filesystem. -/
theorem unique_target_path_not_exists (fs : FS) (t : PyPath) :
    fsExists fs (unique_target_path fs t) = false := by
  unfold unique_target_path
  by_cases h : fsExists fs t = true
  · rw [if_pos h]
    obtain ⟨k, hk, hfree⟩ := exists_free_count fs t 2
    obtain ⟨k', _, heq, hfree', _⟩ :=
      findFree_spec fs t (sizeFS fs + 1) 2 ⟨k, by omega, hfree⟩
    rw [heq]; exact hfree'
  · rw [if_neg h]
    exact (Bool.not_eq_true _).mp h

/-- If the target is free the allocator returns it unchanged. -/
theorem unique_target_path_of_free {fs : FS} {t : PyPath}
    (h : fsExists fs t = false) : unique_target_path fs t = t := by
  unfold unique_target_path
  rw [if_neg (by simp [h])]

/-- If the target exists, the allocator returns the counter suffix with the
least counter `n ≥ 2` whose name is free. -/
theorem unique_target_path_least {fs : FS} {t : PyPath}
    (h : fsExists fs t = true) :
    ∃ n, 2 ≤ n ∧ unique_target_path fs t = with_count_name t n ∧
      fsExists fs (with_count_name t n) = false ∧
      ∀ m, 2 ≤ m → m < n → fsExists fs (with_count_name t m) = true := by
  unfold unique_target_path
  rw [if_pos h]
  obtain ⟨k, hk, hfree⟩ := exists_free_count fs t 2
  obtain ⟨k', hk', heq, hfree', hmin⟩ :=
    findFree_spec fs t (sizeFS fs + 1) 2 ⟨k, by omega, hfree⟩
  refine ⟨2 + k', by omega, heq, hfree', ?_⟩
  intro m hm2 hmk
  have := hmin (m - 2) (by omega)
  have hme : 2 + (m - 2) = m := by omega
  rwa [hme] at this

/-- Idempotence: re-running the allocator on its own result is the identity. -/
theorem unique_target_path_idem (fs : FS) (t : PyPath) :
    unique_target_path fs (unique_target_path fs t) = unique_target_path fs t :=
  unique_target_path_of_free (unique_target_path_not_exists fs t)

/-! ### Python string primitives -/

/-- ASCII lowercasing of one character (`str.lower` on the characters the
program compares: extensions and column keywords are ASCII). -/
def lowerChar : Char → Char
  | 'A' => 'a' | 'B' => 'b' | 'C' => 'c' | 'D' => 'd' | 'E' => 'e' | 'F' => 'f'
  | 'G' => 'g' | 'H' => 'h' | 'I' => 'i' | 'J' => 'j' | 'K' => 'k' | 'L' => 'l'
  | 'M' => 'm' | 'N' => 'n' | 'O' => 'o' | 'P' => 'p' | 'Q' => 'q' | 'R' => 'r'
  | 'S' => 's' | 'T' => 't' | 'U' => 'u' | 'V' => 'v' | 'W' => 'w' | 'X' => 'x'
  | 'Y' => 'y' | 'Z' => 'z' | c => c

/-- Python `str.lower`. -/
def strLower (s : String) : String := ⟨s.data.map lowerChar⟩

/-- Python `str.strip`: drop whitespace from both ends. -/
def strTrim (s : String) : String :=
  ⟨((s.data.dropWhile Char.isWhitespace).reverse.dropWhile Char.isWhitespace).reverse⟩

/-- Python `str.endswith`. -/
def pyEndsWith (s post : String) : Bool := post.data.isSuffixOf s.data

/-- Python's `sub in s` substring test. -/
def pyContainsSub (s sub : String) : Bool := decide (sub.data <:+: s.data)

/-! ### Constants of the program -/

def MUSIC_EXTS : List String := [".flac", ".m4a", ".mp4"]

def M4A_EXTS : List String := [".m4a", ".mp4"]

def FLAC_EXTS : List String := [".flac"]

def PATHLIKE_COL_KEYWORDS : List String :=
  ["path", "file", "location", "filename", "track file", "file path", "source",
   "fullpath", "url"]

/-- Source `looks_like_path`: length at least 5 and (after strip+lower) ends with a
recognized music extension. The source's separator test is a no-op (`pass`)
and is omitted. -/
def looks_like_path (s : String) : Bool :=
  if s.length < 5 then false
  else MUSIC_EXTS.any (fun ext => pyEndsWith (strLower (strTrim s)) ext)

/-! ### `pathlib` parsing of candidate strings (posix rules) -/

/-- Split a character list at every occurrence of `sep` (groups keep order,
empty groups preserved). -/
def splitChar (sep : Char) : List Char → List (List Char)
  | [] => [[]]
  | c :: rest =>
    if c = sep then [] :: splitChar sep rest
    else
      match splitChar sep rest with
      | [] => [[c]]
      | g :: gs => (c :: g) :: gs

/-- Path components as `pathlib` parses a string: split on the separator,
drop empty components and single dots. -/
def strComps (s : String) : List String :=
  ((splitChar '/' s.data).filter (fun g => g ≠ [] ∧ g ≠ ['.'])).map
    (fun g => (⟨g⟩ : String))

/-- Python `PurePosixPath.is_absolute`. -/
def isAbsolute (s : String) : Bool := s.data.head? == some '/'

/-- Python `Path(s).name`: the final component, or empty. -/
def pyNameOf (s : String) : String := (strComps s).getLast?.getD ""

/-- The stem/suffix split of a name component, as `PurePath.suffix` computes
it: the suffix starts at the last dot when it is neither the first nor the
last character; otherwise the suffix is empty. -/
def pySplitNameData (name : List Char) : List Char × List Char :=
  match name.reverse.dropWhile (fun c => c ≠ '.') with
  | [] => (name, [])
  | _ :: stemR =>
    if stemR = [] ∨ name.reverse.takeWhile (fun c => c ≠ '.') = [] then (name, [])
    else (stemR.reverse, '.' :: (name.reverse.takeWhile (fun c => c ≠ '.')).reverse)

def pySplitName (name : String) : String × String :=
  let p := pySplitNameData name.data
  (⟨p.1⟩, ⟨p.2⟩)

/-- Build a `PyPath` from a full component list. -/
def mkPath (comps : List String) : PyPath :=
  let name := comps.getLast?.getD ""
  let p := pySplitName name
  ⟨comps.dropLast, p.1, p.2⟩

/-- Source `normalize_to_root`: interpret the candidate relative to the root when it
is not absolute. -/
def normalize_to_root (s : String) (root : List String) : PyPath :=
  if isAbsolute s then mkPath (strComps s) else mkPath (root ++ strComps s)

/-- Environment of `Path.resolve`: maps a component list to its real
(symlink-free, absolute) component list. -/
structure ResolveEnv where
  realpath : List String → List String

/-- Source `is_under`: `child.resolve().relative_to(root.resolve())` succeeds, i.e.
the root's real components are a prefix of the child's. -/
def is_under (env : ResolveEnv) (child : PyPath) (root : List String) : Bool :=
  (env.realpath root).isPrefixOf (env.realpath child.comps)

/-- The two-route resolution of one candidate (the body of `plan_from_xlsx`,
lines 238-253): (1) root-relative or absolute interpretation, requiring an
existing regular file under the root; (2) the bare final name component
looked up directly inside the root; otherwise unresolved. -/
def resolve_candidate (fs : FS) (env : ResolveEnv) (root : List String)
    (raw : String) : Option PyPath :=
  let p_try := normalize_to_root raw root
  if fsExists fs p_try && isFile fs p_try && is_under env p_try root then
    some p_try
  else
    let base := pyNameOf raw
    let p2 := mkPath (root ++ [base])
    if fsExists fs p2 && isFile fs p2 then some p2 else none

/-! ### Probe results and output verification -/

/-- What the engine reads from an `ffprobe` JSON document: the `codec_type`
of each stream entry and the format duration, already parsed as a rational
(`none` when the field is missing or unparsable, which Python reads as 0). -/
structure ProbeInfo where
  streams : List String
  duration : Option ℚ
deriving DecidableEq, Repr

/-- Source `verify_audio_ok`: the output must be probeable, report at least one
audio stream, and report a duration strictly above half a second. `none`
models both a failing `ffprobe` call and an empty JSON document (which is
falsy in Python). -/
def verify_audio_ok (probe : Option ProbeInfo) : Bool :=
  match probe with
  | none => false
  | some info =>
    let dur := info.duration.getD 0
    let has_stream := info.streams.any (fun c => c = "audio")
    has_stream && decide (mkRat 1 2 < dur)

/-! ### Remediation actions and the planner -/

/-- One element of an ffmpeg argument vector: a fixed option string or a
rendered path. -/
inductive Arg where
  | lit (s : String)
  | path (p : PyPath)
deriving DecidableEq, Repr

/-- A planned remediation action. -/
structure Action where
  kind : String
  src : PyPath
  dst : Option PyPath
  cmd : List Arg
  note : String
deriving DecidableEq, Repr

/-- Source `build_ffmpeg_cmd_convert_to_flac`: lossless re-encode preserving
metadata, first audio stream only, maximum compression, output last. -/
def build_ffmpeg_cmd_convert_to_flac (src dst : PyPath) : List Arg :=
  [.lit "ffmpeg", .lit "-hide_banner", .lit "-nostdin", .lit "-y",
   .lit "-i", .path src,
   .lit "-map_metadata", .lit "0",
   .lit "-c:a", .lit "flac", .lit "-compression_level", .lit "8",
   .lit "-map", .lit "0:a:0",
   .path dst]

/-- Source `decide_actions_for_path`. The result of the ffmpeg decode test on an
existing flac file is supplied by the environment `decode_ok`. -/
def decide_actions_for_path (fs : FS) (decode_ok : PyPath → Bool)
    (src : PyPath) : List Action :=
  let ext := strLower src.suffix
  if ext ∈ M4A_EXTS then
    let dst0 := src.with_suffix_ ".flac"
    let dst := if fsExists fs dst0 then unique_target_path fs dst0 else dst0
    [⟨"convert_m4a", src, some dst, build_ffmpeg_cmd_convert_to_flac src dst,
      "m4a→flac"⟩]
  else if ext ∈ FLAC_EXTS then
    if decode_ok src then []
    else
      let dst0 := src.with_suffix_ ".flac"
      let dst := if fsExists fs dst0 then unique_target_path fs dst0 else dst0
      [⟨"repair_flac", src, some dst, build_ffmpeg_cmd_convert_to_flac src dst,
        "re-encode flac"⟩]
  else []

/-- Status of one report row produced by planning. -/
inductive RowStatus where
  | notFound
  | skipUnsupported (ext : String)
  | okNoFix
  | planned (kinds : List String)
deriving DecidableEq, Repr

/-- Planning of one (not previously seen) candidate string: resolve, check
the extension family, plan actions. -/
def plan_one (fs : FS) (env : ResolveEnv) (decode_ok : PyPath → Bool)
    (root : List String) (raw : String) :
    (String × Option PyPath × RowStatus) × List Action :=
  match resolve_candidate fs env root raw with
  | none => ((raw, none, .notFound), [])
  | some r =>
    if strLower r.suffix ∈ MUSIC_EXTS then
      match decide_actions_for_path fs decode_ok r with
      | [] => ((raw, some r, .okNoFix), [])
      | acts => ((raw, some r, .planned (acts.map (·.kind))), acts)
    else ((raw, some r, .skipUnsupported r.suffix), [])

/-- The planning loop over all candidates, skipping duplicates. -/
def plan_loop (fs : FS) (env : ResolveEnv) (decode_ok : PyPath → Bool)
    (root : List String) :
    List String → List String →
    List (String × Option PyPath × RowStatus) × List Action
  | [], _ => ([], [])
  | raw :: rest, seen =>
    if raw ∈ seen then plan_loop fs env decode_ok root rest seen
    else
      let first := plan_one fs env decode_ok root raw
      let later := plan_loop fs env decode_ok root rest (raw :: seen)
      (first.1 :: later.1, first.2 ++ later.2)

/-! ### The execution engine (`apply_actions`) -/

/-- External effects of executing one action: the transcoder's exit code,
whether an output file appeared at the destination, the `ffprobe` result of
that output, and whether each `os.remove` call succeeds (a failing remove is
caught and only warned by `safe_remove`). -/
structure StepEnv where
  rc : Nat
  outCreated : Bool
  probe : Option ProbeInfo
  srcRemoveOk : Bool
  dstRemoveOk : Bool

/-- One audit log row: kind, source, destination, status token, note. -/
structure LogRow where
  kind : String
  src : PyPath
  dst : Option PyPath
  status : String
  note : String
deriving DecidableEq, Repr

/-- Source `safe_remove`: remove the path; on an OS error only warn, leaving the
filesystem unchanged. -/
def safe_remove (fs : FS) (p : PyPath) (removeOk : Bool) : FS :=
  if removeOk then removeFile fs p else fs

/-- Rebuild the command with the (possibly re-uniquified) destination as the
final argument, as the apply loop does before launching ffmpeg. -/
def finalCmd (a : Action) (dst? : Option PyPath) : List Arg :=
  match dst? with
  | some d =>
    if a.cmd.getLast? ≠ some (Arg.path d) then a.cmd.dropLast ++ [Arg.path d]
    else a.cmd
  | none => a.cmd

/-- Result of processing one action. -/
structure StepOut where
  fs : FS
  row : LogRow
  succ : Nat
  err : Nat
  invoked : Bool
  cmdRun : List Arg

/-- The body of the `apply_actions` loop for one action: re-allocate the
destination, preview or run the transcoder, clean up partial output on
failure, verify, and commit by removing the source on verified success. -/
def execStep (fs : FS) (preview : Bool) (env : StepEnv) (a : Action) :
    StepOut :=
  let dst? := a.dst.map (unique_target_path fs)
  if preview then
    ⟨fs, ⟨a.kind, a.src, dst?, "PREVIEW", a.note⟩, 0, 0, false, []⟩
  else
    let cmd := finalCmd a dst?
    let fs1 := match dst? with
      | some d => if env.outCreated then addFile fs d else fs
      | none => fs
    let cleanup := fun (fsc : FS) => match dst? with
      | some d => if fsExists fsc d then safe_remove fsc d env.dstRemoveOk else fsc
      | none => fsc
    if env.rc ≠ 0 then
      ⟨cleanup fs1, ⟨a.kind, a.src, dst?, "ERROR", a.note⟩, 0, 1, true, cmd⟩
    else if (match dst? with
             | none => true
             | some d => !(fsExists fs1 d) || !(verify_audio_ok env.probe)) then
      ⟨cleanup fs1, ⟨a.kind, a.src, dst?, "ERROR: verify", a.note⟩, 0, 1, true, cmd⟩
    else
      ⟨safe_remove fs1 a.src env.srcRemoveOk,
       ⟨a.kind, a.src, dst?, "OK", a.note⟩, 1, 0, true, cmd⟩

/-- Accumulated state of a batch run. -/
structure BatchState where
  fs : FS
  log : List LogRow
  success : Nat
  error : Nat
  idx : Nat
  invoked : Nat

/-- The kinds the apply loop executes; others are skipped. -/
def isRunKind (k : String) : Bool := k = "convert_m4a" || k = "repair_flac"

/-- Source `apply_actions`: process the actions strictly in order, one at a time,
indexing the per-action environment by the running action counter. -/
def apply_actions (preview : Bool) (envs : Nat → StepEnv) :
    List Action → BatchState → BatchState
  | [], st => st
  | a :: rest, st =>
    if isRunKind a.kind then
      let out := execStep st.fs preview (envs st.idx) a
      apply_actions preview envs rest
        ⟨out.fs, st.log ++ [out.row], st.success + out.succ,
         st.error + out.err, st.idx + 1,
         st.invoked + (if out.invoked then 1 else 0)⟩
    else apply_actions preview envs rest st

/-! ### The report extractor -/

/-- One sheet as the report reader hands it over: column headers and a grid
of cells (`none` is a NaN cell). -/
structure Df where
  headers : List String
  rows : List (List (Option String))

/-- Source `find_path_columns`: indices of columns whose (stripped, lowered) header
contains a path-like keyword. -/
def find_path_columns (df : Df) : List (Nat × String) :=
  df.headers.enum.filter (fun c =>
    PATHLIKE_COL_KEYWORDS.any (fun k => pyContainsSub (strLower (strTrim c.2)) k))

/-- The non-NaN string values of column `i` (`dropna` then `astype(str)`). -/
def colValues (df : Df) (i : Nat) : List String :=
  df.rows.filterMap (fun row => (row.get? i).getD none)

/-- First-seen-order deduplication with an explicit seen set. -/
def dedupFirst : List String → List String → List String
  | [], _ => []
  | x :: xs, seen =>
    if x ∈ seen then dedupFirst xs seen else x :: dedupFirst xs (x :: seen)

/-- Source `extract_candidate_paths`: collect path-like cells from the keyword
columns; if none were found, scan every cell (where `astype(str)` renders a
NaN cell as the string "nan"); deduplicate preserving first-seen order. -/
def extract_candidate_paths (df : Df) : List String :=
  let pcols := find_path_columns df
  let paths1 := (pcols.map (fun c =>
    (colValues df c.1).filterMap (fun v =>
      if looks_like_path v then some (strTrim v) else none))).flatten
  let paths :=
    if paths1.isEmpty then
      ((df.rows.map (fun row => row.map (fun c => c.getD "nan"))).flatten).filterMap
        (fun v => let s := strTrim v; if looks_like_path s then some s else none)
    else paths1
  dedupFirst paths []

/-! ### The command-line entry point -/

/-- Source `require_tools`: the required tools missing from the PATH. -/
def require_tools (which : String → Option String) (tools : List String) :
    List String :=
  tools.filter (fun t => (which t).isNone)

/-- Environment of one whole invocation. -/
structure MainEnv where
  which : String → Option String
  xlsxExists : Bool
  rootExists : Bool
  rootIsDir : Bool
  readOk : Bool
  sheets : List Df
  rootComps : List String
  fs : FS
  renv : ResolveEnv
  decode_ok : PyPath → Bool
  stepEnvs : Nat → StepEnv

/-- Source `main`: pre-flight tool check (exit 2), report and root checks (exit 1),
report reading (exit 1 on failure), then plan and execute, finishing with
exit 0 whatever the per-file outcome counts are. Returns the exit code and,
when the run completes, the success and error counts. -/
def mainRun (env : MainEnv) (applyFlag : Bool) : Nat × Option (Nat × Nat) :=
  if require_tools env.which ["ffmpeg", "ffprobe"] ≠ [] then (2, none)
  else if !env.xlsxExists then (1, none)
  else if !(env.rootExists && env.rootIsDir) then (1, none)
  else if !env.readOk then (1, none)
  else
    let cands := (env.sheets.map extract_candidate_paths).flatten
    let planned := plan_loop env.fs env.renv env.decode_ok env.rootComps cands []
    let st := apply_actions (!applyFlag) env.stepEnvs planned.2
      ⟨env.fs, [], 0, 0, 0, 0⟩
    (0, some (st.success, st.error))

/-! ### Basic filesystem lemmas -/

theorem fsExists_false_iff {fs : FS} {p : PyPath} :
    fsExists fs p = false ↔ p ∉ fs.files ∧ p ∉ fs.dirs := by
  simp [fsExists, not_or]

theorem mem_files_addFile {fs : FS} {p q : PyPath} :
    q ∈ (addFile fs p).files ↔ q = p ∨ q ∈ fs.files := by
  unfold addFile
  by_cases h : p ∈ fs.files
  · rw [if_pos h]
    constructor
    · exact Or.inr
    · rintro (rfl | hq)
      · exact h
      · exact hq
  · rw [if_neg h]
    simp

theorem dirs_addFile {fs : FS} {p : PyPath} : (addFile fs p).dirs = fs.dirs := by
  unfold addFile
  split <;> rfl

theorem mem_files_removeFile {fs : FS} {p q : PyPath} :
    q ∈ (removeFile fs p).files ↔ q ∈ fs.files ∧ q ≠ p := by
  simp [removeFile]

theorem dirs_removeFile {fs : FS} {p : PyPath} :
    (removeFile fs p).dirs = fs.dirs := rfl

/-- Shape of the search loop's result: always a counter name. -/
theorem findFree_shape (fs : FS) (t : PyPath) :
    ∀ fuel start, ∃ n, findFree fs t fuel start = with_count_name t n := by
  intro fuel
  induction fuel with
  | zero => intro start; exact ⟨start, rfl⟩
  | succ f ih =>
    intro start
    unfold findFree
    by_cases h : fsExists fs (with_count_name t start) = true
    · rw [if_pos h]; exact ih (start + 1)
    · rw [if_neg h]; exact ⟨start, rfl⟩

/-- The allocator preserves the directory and the suffix of its target. -/
theorem unique_target_path_dir_suffix (fs : FS) (t : PyPath) :
    (unique_target_path fs t).dir = t.dir ∧
    (unique_target_path fs t).suffix = t.suffix := by
  unfold unique_target_path
  split
  · obtain ⟨n, hn⟩ := findFree_shape fs t (sizeFS fs + 1) 2
    rw [hn]
    exact ⟨rfl, rfl⟩
  · exact ⟨rfl, rfl⟩

/-! ### Claim C5 -/

/-- C5: the Naming Allocator returns a non-existing path unchanged; on a
collision it returns a free path obtained by appending a counter " (N)" to
the stem (before the extension) for the least N ≥ 2 that is free; and the
allocator is idempotent. -/
theorem claim_C5 (fs : FS) (p : PyPath) :
    (fsExists fs p = false → unique_target_path fs p = p) ∧
    (fsExists fs p = true →
      ∃ n, 2 ≤ n ∧
        unique_target_path fs p =
          ⟨p.dir, p.stem ++ " (" ++ natStr n ++ ")", p.suffix⟩ ∧
        fsExists fs (unique_target_path fs p) = false ∧
        ∀ m, 2 ≤ m → m < n →
          fsExists fs ⟨p.dir, p.stem ++ " (" ++ natStr m ++ ")", p.suffix⟩ = true) ∧
    unique_target_path fs (unique_target_path fs p) = unique_target_path fs p := by
  refine ⟨fun h => unique_target_path_of_free h, fun h => ?_,
    unique_target_path_idem fs p⟩
  obtain ⟨n, hn2, heq, hfree, hmin⟩ := unique_target_path_least h
  exact ⟨n, hn2, heq, unique_target_path_not_exists fs p, hmin⟩

/-- Witness for C5 at a concrete filesystem: `track.flac` and `track (2).flac`
exist, so the allocator must step to the counter value 3. -/
theorem claim_C5_witness :
    fsExists ⟨[⟨[], "track", ".flac"⟩, ⟨[], "track (2)", ".flac"⟩], []⟩
        ⟨[], "track", ".flac"⟩ = true ∧
    (∃ n, 2 ≤ n ∧
      unique_target_path ⟨[⟨[], "track", ".flac"⟩, ⟨[], "track (2)", ".flac"⟩], []⟩
          ⟨[], "track", ".flac"⟩ =
        ⟨[], "track" ++ " (" ++ natStr n ++ ")", ".flac"⟩ ∧
      fsExists ⟨[⟨[], "track", ".flac"⟩, ⟨[], "track (2)", ".flac"⟩], []⟩
        (unique_target_path ⟨[⟨[], "track", ".flac"⟩, ⟨[], "track (2)", ".flac"⟩], []⟩
          ⟨[], "track", ".flac"⟩) = false ∧
      ∀ m, 2 ≤ m → m < n →
        fsExists ⟨[⟨[], "track", ".flac"⟩, ⟨[], "track (2)", ".flac"⟩], []⟩
          ⟨[], "track" ++ " (" ++ natStr m ++ ")", ".flac"⟩ = true) :=
  ⟨by decide,
   (claim_C5 ⟨[⟨[], "track", ".flac"⟩, ⟨[], "track (2)", ".flac"⟩], []⟩
     ⟨[], "track", ".flac"⟩).2.1 (by decide)⟩

/-! ### Claim C4 -/

/-- C4: the planner's decision table. A lossy-container file always yields
exactly one Convert action; a lossless file yields a Repair action exactly
when the decode test fails; any other extension yields no action. The
destination is the source with its extension replaced by `.flac`,
disambiguated by the Naming Allocator when that path already exists. -/
theorem claim_C4 (fs : FS) (dok : PyPath → Bool) (src : PyPath) :
    (strLower src.suffix ∈ M4A_EXTS →
      ∃ d, decide_actions_for_path fs dok src =
          [⟨"convert_m4a", src, some d,
            build_ffmpeg_cmd_convert_to_flac src d, "m4a→flac"⟩] ∧
        d.dir = src.dir ∧ d.suffix = ".flac" ∧
        (fsExists fs (src.with_suffix_ ".flac") = false →
          d = src.with_suffix_ ".flac") ∧
        (fsExists fs (src.with_suffix_ ".flac") = true →
          d = unique_target_path fs (src.with_suffix_ ".flac") ∧
          fsExists fs d = false)) ∧
    (strLower src.suffix ∈ FLAC_EXTS →
      (dok src = true → decide_actions_for_path fs dok src = []) ∧
      (dok src = false →
        ∃ d, decide_actions_for_path fs dok src =
            [⟨"repair_flac", src, some d,
              build_ffmpeg_cmd_convert_to_flac src d, "re-encode flac"⟩] ∧
          d.dir = src.dir ∧ d.suffix = ".flac" ∧
          (fsExists fs (src.with_suffix_ ".flac") = false →
            d = src.with_suffix_ ".flac") ∧
          (fsExists fs (src.with_suffix_ ".flac") = true →
            d = unique_target_path fs (src.with_suffix_ ".flac") ∧
            fsExists fs d = false))) ∧
    (strLower src.suffix ∉ M4A_EXTS → strLower src.suffix ∉ FLAC_EXTS →
      decide_actions_for_path fs dok src = []) := by
  refine ⟨fun hm => ?_, fun hf => ⟨fun hok => ?_, fun hbad => ?_⟩,
    fun hnm hnf => ?_⟩
  · refine ⟨if fsExists fs (src.with_suffix_ ".flac") then
        unique_target_path fs (src.with_suffix_ ".flac")
      else src.with_suffix_ ".flac", ?_, ?_, ?_, ?_, ?_⟩
    · simp only [decide_actions_for_path, if_pos hm]
    · split
      · exact (unique_target_path_dir_suffix fs _).1
      · rfl
    · split
      · exact (unique_target_path_dir_suffix fs _).2
      · rfl
    · intro h; rw [if_neg (by simp [h])]
    · intro h
      rw [if_pos h]
      exact ⟨rfl, unique_target_path_not_exists fs _⟩
  · have hnm : strLower src.suffix ∉ M4A_EXTS := by
      intro hmem
      simp only [FLAC_EXTS, List.mem_singleton] at hf
      simp [M4A_EXTS, hf] at hmem
    simp only [decide_actions_for_path, if_neg hnm, if_pos hf, hok, if_pos]
  · have hnm : strLower src.suffix ∉ M4A_EXTS := by
      intro hmem
      simp only [FLAC_EXTS, List.mem_singleton] at hf
      simp [M4A_EXTS, hf] at hmem
    refine ⟨if fsExists fs (src.with_suffix_ ".flac") then
        unique_target_path fs (src.with_suffix_ ".flac")
      else src.with_suffix_ ".flac", ?_, ?_, ?_, ?_, ?_⟩
    · simp only [decide_actions_for_path, if_neg hnm, if_pos hf, hbad,
        Bool.false_eq_true, if_neg, if_false]
    · split
      · exact (unique_target_path_dir_suffix fs _).1
      · rfl
    · split
      · exact (unique_target_path_dir_suffix fs _).2
      · rfl
    · intro h; rw [if_neg (by simp [h])]
    · intro h
      rw [if_pos h]
      exact ⟨rfl, unique_target_path_not_exists fs _⟩
  · simp only [decide_actions_for_path, if_neg hnm, if_neg hnf]

/-- Witness for C4: a concrete `.m4a` file whose `.flac` sibling already
exists, so the planner emits one Convert action with a disambiguated
destination. -/
theorem claim_C4_witness :
    strLower (PyPath.suffix ⟨[], "track", ".m4a"⟩) ∈ M4A_EXTS ∧
    ∃ d, decide_actions_for_path
          ⟨[⟨[], "track", ".m4a"⟩, ⟨[], "track", ".flac"⟩], []⟩ (fun _ => true)
          ⟨[], "track", ".m4a"⟩ =
        [⟨"convert_m4a", ⟨[], "track", ".m4a"⟩, some d,
          build_ffmpeg_cmd_convert_to_flac ⟨[], "track", ".m4a"⟩ d, "m4a→flac"⟩] ∧
      d.dir = PyPath.dir ⟨[], "track", ".m4a"⟩ ∧ d.suffix = ".flac" ∧
      (fsExists ⟨[⟨[], "track", ".m4a"⟩, ⟨[], "track", ".flac"⟩], []⟩
          (PyPath.with_suffix_ ⟨[], "track", ".m4a"⟩ ".flac") = false →
        d = PyPath.with_suffix_ ⟨[], "track", ".m4a"⟩ ".flac") ∧
      (fsExists ⟨[⟨[], "track", ".m4a"⟩, ⟨[], "track", ".flac"⟩], []⟩
          (PyPath.with_suffix_ ⟨[], "track", ".m4a"⟩ ".flac") = true →
        d = unique_target_path ⟨[⟨[], "track", ".m4a"⟩, ⟨[], "track", ".flac"⟩], []⟩
            (PyPath.with_suffix_ ⟨[], "track", ".m4a"⟩ ".flac") ∧
        fsExists ⟨[⟨[], "track", ".m4a"⟩, ⟨[], "track", ".flac"⟩], []⟩ d = false) :=
  ⟨by decide,
   (claim_C4 ⟨[⟨[], "track", ".m4a"⟩, ⟨[], "track", ".flac"⟩], []⟩ (fun _ => true)
     ⟨[], "track", ".m4a"⟩).1 (by decide)⟩

/-! ### Execution engine lemmas -/

theorem mem_files_safe_remove {fs : FS} {p q : PyPath} {ok : Bool} :
    q ∈ (safe_remove fs p ok).files ↔ q ∈ fs.files ∧ (ok = true → q ≠ p) := by
  cases ok <;> simp [safe_remove, mem_files_removeFile]

theorem dirs_safe_remove {fs : FS} {p : PyPath} {ok : Bool} :
    (safe_remove fs p ok).dirs = fs.dirs := by
  unfold safe_remove
  split <;> rfl

theorem fsExists_addFile_self {fs : FS} {p : PyPath} :
    fsExists (addFile fs p) p = true := by
  rw [fsExists_iff, mem_files_addFile]
  exact Or.inl (Or.inl rfl)

/-- The final argument of the launched command is always the re-allocated
destination. -/
theorem finalCmd_getLast (a : Action) (d : PyPath) :
    (finalCmd a (some d)).getLast? = some (Arg.path d) := by
  show (if a.cmd.getLast? ≠ some (Arg.path d) then a.cmd.dropLast ++ [Arg.path d]
        else a.cmd).getLast? = some (Arg.path d)
  split
  · exact List.getLast?_concat _
  · rename_i h
    simpa using h

/-- A non-zero transcoder exit code: "ERROR" row, error counted, partial
output removal attempted (when one appeared), source untouched. -/
theorem execStep_error (fs : FS) (env : StepEnv) (a : Action) (t : PyPath)
    (hdst : a.dst = some t) (hrc : env.rc ≠ 0) :
    execStep fs false env a =
      ⟨(if env.outCreated then
          safe_remove (addFile fs (unique_target_path fs t))
            (unique_target_path fs t) env.dstRemoveOk
        else fs),
       ⟨a.kind, a.src, some (unique_target_path fs t), "ERROR", a.note⟩,
       0, 1, true, finalCmd a (some (unique_target_path fs t))⟩ := by
  cases hoc : env.outCreated
  · simp only [execStep, hdst, Option.map_some', hoc, Bool.false_eq_true,
      if_false, if_pos hrc, unique_target_path_not_exists fs t]
  · simp only [execStep, hdst, Option.map_some', hoc, if_true, if_pos hrc,
      fsExists_addFile_self, Bool.false_eq_true, if_false]

/-- A zero exit code with missing or unverified output: "ERROR: verify" row,
error counted, partial output removal attempted, source untouched. -/
theorem execStep_vfail (fs : FS) (env : StepEnv) (a : Action) (t : PyPath)
    (hdst : a.dst = some t) (hrc : env.rc = 0)
    (hfail : env.outCreated = false ∨ verify_audio_ok env.probe = false) :
    execStep fs false env a =
      ⟨(if env.outCreated then
          safe_remove (addFile fs (unique_target_path fs t))
            (unique_target_path fs t) env.dstRemoveOk
        else fs),
       ⟨a.kind, a.src, some (unique_target_path fs t), "ERROR: verify", a.note⟩,
       0, 1, true, finalCmd a (some (unique_target_path fs t))⟩ := by
  cases hoc : env.outCreated
  · simp only [execStep, hdst, Option.map_some', hoc, Bool.false_eq_true,
      if_false, hrc, ne_eq, not_true_eq_false, unique_target_path_not_exists fs t,
      Bool.not_false, Bool.true_or, if_true]
  · rcases hfail with h | h
    · rw [hoc] at h; cases h
    · simp only [execStep, hdst, Option.map_some', hoc, if_true, hrc, ne_eq,
        not_true_eq_false, Bool.false_eq_true, if_false, fsExists_addFile_self, h,
        Bool.not_false, Bool.not_true, Bool.or_true]

/-- A zero exit code with an existing, verified output: the source removal is
attempted, the row is "OK", success counted. -/
theorem execStep_success (fs : FS) (env : StepEnv) (a : Action) (t : PyPath)
    (hdst : a.dst = some t) (hrc : env.rc = 0) (hoc : env.outCreated = true)
    (hv : verify_audio_ok env.probe = true) :
    execStep fs false env a =
      ⟨safe_remove (addFile fs (unique_target_path fs t)) a.src env.srcRemoveOk,
       ⟨a.kind, a.src, some (unique_target_path fs t), "OK", a.note⟩,
       1, 0, true, finalCmd a (some (unique_target_path fs t))⟩ := by
  simp only [execStep, hdst, Option.map_some', hoc, if_true, hrc, ne_eq,
    not_true_eq_false, Bool.false_eq_true, if_false, fsExists_addFile_self, hv,
    Bool.not_true, Bool.or_self]

/-! ### Claim C3 -/

/-- C3: the verification predicate holds exactly when the output is
probeable, reports at least one audio stream, and reports a duration
strictly above half a second; and in apply mode a zero exit code followed by
a missing or unverified output yields the distinct "ERROR: verify" outcome,
never "OK". -/
theorem claim_C3 (p : Option ProbeInfo) (fs : FS) (env : StepEnv) (a : Action)
    (t : PyPath) (hdst : a.dst = some t) (hrc : env.rc = 0)
    (hfail : env.outCreated = false ∨ verify_audio_ok env.probe = false) :
    (verify_audio_ok p = true ↔
      ∃ info, p = some info ∧ "audio" ∈ info.streams ∧
        (1 : ℚ) / 2 < info.duration.getD 0) ∧
    (execStep fs false env a).row.status = "ERROR: verify" ∧
    (execStep fs false env a).row.status ≠ "OK" := by
  refine ⟨?_, ?_, ?_⟩
  · cases p with
    | none => simp [verify_audio_ok]
    | some info =>
      simp only [verify_audio_ok, Bool.and_eq_true, List.any_eq_true,
        decide_eq_true_eq, Option.some.injEq]
      rw [Rat.mkRat_eq_div]
      constructor
      · rintro ⟨⟨c, hc, rfl⟩, hdur⟩
        exact ⟨info, rfl, hc, by push_cast at hdur ⊢; exact hdur⟩
      · rintro ⟨info', hinfo, hc, hdur⟩
        cases hinfo
        exact ⟨⟨"audio", hc, rfl⟩, by push_cast at hdur ⊢; exact hdur⟩
  · rw [execStep_vfail fs env a t hdst hrc hfail]
  · rw [execStep_vfail fs env a t hdst hrc hfail]
    simp

/-- Witness for C3: a concrete truncated output (no audio stream, zero
duration) after a zero exit code gives "ERROR: verify". -/
theorem claim_C3_witness :
    (verify_audio_ok (some ⟨[], some 0⟩) = true ↔
      ∃ info, (some ⟨[], some 0⟩ : Option ProbeInfo) = some info ∧
        "audio" ∈ info.streams ∧ (1 : ℚ) / 2 < info.duration.getD 0) ∧
    (execStep ⟨[⟨[], "track", ".m4a"⟩], []⟩ false
        ⟨0, true, some ⟨[], some 0⟩, true, true⟩
        ⟨"convert_m4a", ⟨[], "track", ".m4a"⟩, some ⟨[], "track", ".flac"⟩,
          build_ffmpeg_cmd_convert_to_flac ⟨[], "track", ".m4a"⟩
            ⟨[], "track", ".flac"⟩, "m4a→flac"⟩).row.status = "ERROR: verify" ∧
    (execStep ⟨[⟨[], "track", ".m4a"⟩], []⟩ false
        ⟨0, true, some ⟨[], some 0⟩, true, true⟩
        ⟨"convert_m4a", ⟨[], "track", ".m4a"⟩, some ⟨[], "track", ".flac"⟩,
          build_ffmpeg_cmd_convert_to_flac ⟨[], "track", ".m4a"⟩
            ⟨[], "track", ".flac"⟩, "m4a→flac"⟩).row.status ≠ "OK" :=
  claim_C3 (some ⟨[], some 0⟩) ⟨[⟨[], "track", ".m4a"⟩], []⟩
    ⟨0, true, some ⟨[], some 0⟩, true, true⟩
    ⟨"convert_m4a", ⟨[], "track", ".m4a"⟩, some ⟨[], "track", ".flac"⟩,
      build_ffmpeg_cmd_convert_to_flac ⟨[], "track", ".m4a"⟩
        ⟨[], "track", ".flac"⟩, "m4a→flac"⟩
    ⟨[], "track", ".flac"⟩ rfl rfl (Or.inr (by decide))

/-- The allocator's result differs from every file currently on disk. -/
theorem unique_target_path_ne_existing {fs : FS} {t q : PyPath}
    (hq : q ∈ fs.files) : unique_target_path fs t ≠ q := by
  intro h
  have hfree := unique_target_path_not_exists fs t
  rw [h] at hfree
  rw [fsExists_false_iff] at hfree
  exact hfree.1 hq

/-! ### Claim C6 -/

/-- C6: at execution time the Naming Allocator is re-applied to the planned
destination, the launched command's output argument is the re-allocated
destination, that destination never exists at launch time (so no
pre-existing file, in particular not the still-existing source, is
overwritten), and when the planned destination is still free the
re-allocation returns it unchanged. -/
theorem claim_C6 (fs : FS) (env : StepEnv) (a : Action) (t : PyPath)
    (hdst : a.dst = some t) :
    fsExists fs (unique_target_path fs t) = false ∧
    (execStep fs false env a).cmdRun.getLast? =
      some (Arg.path (unique_target_path fs t)) ∧
    (execStep fs false env a).invoked = true ∧
    (fsExists fs t = false → unique_target_path fs t = t) ∧
    (∀ q, q ∈ fs.files → unique_target_path fs t ≠ q) := by
  have hcmd : (execStep fs false env a).cmdRun =
      finalCmd a (some (unique_target_path fs t)) ∧
      (execStep fs false env a).invoked = true := by
    by_cases hrc : env.rc = 0
    · by_cases hoc : env.outCreated = true
      · by_cases hv : verify_audio_ok env.probe = true
        · rw [execStep_success fs env a t hdst hrc hoc hv]
          exact ⟨rfl, rfl⟩
        · rw [execStep_vfail fs env a t hdst hrc
            (Or.inr (by simpa using hv))]
          exact ⟨rfl, rfl⟩
      · rw [execStep_vfail fs env a t hdst hrc
          (Or.inl (by simpa using hoc))]
        exact ⟨rfl, rfl⟩
    · rw [execStep_error fs env a t hdst hrc]
      exact ⟨rfl, rfl⟩
  refine ⟨unique_target_path_not_exists fs t, ?_, hcmd.2,
    fun h => unique_target_path_of_free h,
    fun q hq => unique_target_path_ne_existing hq⟩
  rw [hcmd.1]
  exact finalCmd_getLast a _

/-- Witness for C6: concrete action whose planned destination name is
already taken, so the launch-time re-allocation steps to "b (2)". -/
theorem claim_C6_witness :
    fsExists ⟨[⟨[], "b", ".m4a"⟩, ⟨[], "b", ".flac"⟩], []⟩
      (unique_target_path ⟨[⟨[], "b", ".m4a"⟩, ⟨[], "b", ".flac"⟩], []⟩
        ⟨[], "b", ".flac"⟩) = false ∧
    (execStep ⟨[⟨[], "b", ".m4a"⟩, ⟨[], "b", ".flac"⟩], []⟩ false
        ⟨0, true, some ⟨["audio"], some 8⟩, true, true⟩
        ⟨"convert_m4a", ⟨[], "b", ".m4a"⟩, some ⟨[], "b", ".flac"⟩,
          build_ffmpeg_cmd_convert_to_flac ⟨[], "b", ".m4a"⟩ ⟨[], "b", ".flac"⟩,
          "m4a→flac"⟩).cmdRun.getLast? =
      some (Arg.path (unique_target_path ⟨[⟨[], "b", ".m4a"⟩, ⟨[], "b", ".flac"⟩], []⟩
        ⟨[], "b", ".flac"⟩)) ∧
    (execStep ⟨[⟨[], "b", ".m4a"⟩, ⟨[], "b", ".flac"⟩], []⟩ false
        ⟨0, true, some ⟨["audio"], some 8⟩, true, true⟩
        ⟨"convert_m4a", ⟨[], "b", ".m4a"⟩, some ⟨[], "b", ".flac"⟩,
          build_ffmpeg_cmd_convert_to_flac ⟨[], "b", ".m4a"⟩ ⟨[], "b", ".flac"⟩,
          "m4a→flac"⟩).invoked = true ∧
    (fsExists ⟨[⟨[], "b", ".m4a"⟩, ⟨[], "b", ".flac"⟩], []⟩ ⟨[], "b", ".flac"⟩ = false →
      unique_target_path ⟨[⟨[], "b", ".m4a"⟩, ⟨[], "b", ".flac"⟩], []⟩
        ⟨[], "b", ".flac"⟩ = ⟨[], "b", ".flac"⟩) ∧
    (∀ q, q ∈ FS.files ⟨[⟨[], "b", ".m4a"⟩, ⟨[], "b", ".flac"⟩], []⟩ →
      unique_target_path ⟨[⟨[], "b", ".m4a"⟩, ⟨[], "b", ".flac"⟩], []⟩
        ⟨[], "b", ".flac"⟩ ≠ q) :=
  claim_C6 ⟨[⟨[], "b", ".m4a"⟩, ⟨[], "b", ".flac"⟩], []⟩
    ⟨0, true, some ⟨["audio"], some 8⟩, true, true⟩
    ⟨"convert_m4a", ⟨[], "b", ".m4a"⟩, some ⟨[], "b", ".flac"⟩,
      build_ffmpeg_cmd_convert_to_flac ⟨[], "b", ".m4a"⟩ ⟨[], "b", ".flac"⟩,
      "m4a→flac"⟩ ⟨[], "b", ".flac"⟩ rfl

/-! ### Claim C1 -/

/-- C1 as amended: in apply mode the outcome is "OK" exactly when the
transcoder exited 0 and the destination exists and passes verification;
provided the OS-level deletion of the source succeeds, the source remains on
disk exactly when the outcome is not "OK"; and when the deletion fails the
engine only warns, so the outcome is still "OK" while the source remains. -/
theorem claim_C1_amended (fs : FS) (env : StepEnv) (a : Action) (t : PyPath)
    (hdst : a.dst = some t) (hsrc : a.src ∈ fs.files) :
    ((execStep fs false env a).row.status = "OK" ↔
      env.rc = 0 ∧ env.outCreated = true ∧ verify_audio_ok env.probe = true) ∧
    (env.srcRemoveOk = true →
      (a.src ∈ (execStep fs false env a).fs.files ↔
        (execStep fs false env a).row.status ≠ "OK")) ∧
    (env.srcRemoveOk = false → (execStep fs false env a).row.status = "OK" →
      a.src ∈ (execStep fs false env a).fs.files) := by
  have hne : unique_target_path fs t ≠ a.src := unique_target_path_ne_existing hsrc
  have herr : ∀ (s : String),
      a.src ∈ (FS.files (if env.outCreated = true then
        safe_remove (addFile fs (unique_target_path fs t))
          (unique_target_path fs t) env.dstRemoveOk
      else fs)) := by
    intro _
    by_cases hoc : env.outCreated = true
    · rw [if_pos hoc]
      rw [mem_files_safe_remove, mem_files_addFile]
      exact ⟨Or.inr hsrc, fun _ h => hne (h ▸ rfl)⟩
    · rw [if_neg hoc]
      exact hsrc
  by_cases hrc : env.rc = 0
  · by_cases hoc : env.outCreated = true
    · by_cases hv : verify_audio_ok env.probe = true
      · rw [execStep_success fs env a t hdst hrc hoc hv]
        refine ⟨by simp [hrc, hoc, hv], fun hrm => ?_, fun hrm => ?_⟩
        · simp only [mem_files_safe_remove, hrm]
          simp
        · intro _
          simp only [mem_files_safe_remove, hrm]
          rw [mem_files_addFile]
          simp [Or.inr hsrc]
      · rw [execStep_vfail fs env a t hdst hrc (Or.inr (by simpa using hv))]
        refine ⟨by simp [hv], fun hrm => ?_, fun hrm _ => herr ""⟩
        simp only [ne_eq]
        constructor
        · intro _; simp
        · intro _; exact herr ""
    · rw [execStep_vfail fs env a t hdst hrc (Or.inl (by simpa using hoc))]
      refine ⟨by simp [hoc], fun hrm => ?_, fun hrm _ => herr ""⟩
      constructor
      · intro _; simp
      · intro _; exact herr ""
  · rw [execStep_error fs env a t hdst hrc]
    refine ⟨by simp [hrc], fun hrm => ?_, fun hrm _ => herr ""⟩
    constructor
    · intro _; simp
    · intro _; exact herr ""

/-- Witness for the amended C1 on a concrete successful conversion: the
source is gone afterwards. -/
theorem claim_C1_amended_witness :
    ((execStep ⟨[⟨[], "track", ".m4a"⟩], []⟩ false
        ⟨0, true, some ⟨["audio"], some 8⟩, true, true⟩
        ⟨"convert_m4a", ⟨[], "track", ".m4a"⟩, some ⟨[], "track", ".flac"⟩,
          build_ffmpeg_cmd_convert_to_flac ⟨[], "track", ".m4a"⟩
            ⟨[], "track", ".flac"⟩, "m4a→flac"⟩).row.status = "OK" ↔
      (0 : Nat) = 0 ∧ true = true ∧
        verify_audio_ok (some ⟨["audio"], some 8⟩) = true) ∧
    ((⟨[], "track", ".m4a"⟩ : PyPath) ∈
        (execStep ⟨[⟨[], "track", ".m4a"⟩], []⟩ false
          ⟨0, true, some ⟨["audio"], some 8⟩, true, true⟩
          ⟨"convert_m4a", ⟨[], "track", ".m4a"⟩, some ⟨[], "track", ".flac"⟩,
            build_ffmpeg_cmd_convert_to_flac ⟨[], "track", ".m4a"⟩
              ⟨[], "track", ".flac"⟩, "m4a→flac"⟩).fs.files ↔
      (execStep ⟨[⟨[], "track", ".m4a"⟩], []⟩ false
          ⟨0, true, some ⟨["audio"], some 8⟩, true, true⟩
          ⟨"convert_m4a", ⟨[], "track", ".m4a"⟩, some ⟨[], "track", ".flac"⟩,
            build_ffmpeg_cmd_convert_to_flac ⟨[], "track", ".m4a"⟩
              ⟨[], "track", ".flac"⟩, "m4a→flac"⟩).row.status ≠ "OK") :=
  ⟨(claim_C1_amended ⟨[⟨[], "track", ".m4a"⟩], []⟩
      ⟨0, true, some ⟨["audio"], some 8⟩, true, true⟩
      ⟨"convert_m4a", ⟨[], "track", ".m4a"⟩, some ⟨[], "track", ".flac"⟩,
        build_ffmpeg_cmd_convert_to_flac ⟨[], "track", ".m4a"⟩
          ⟨[], "track", ".flac"⟩, "m4a→flac"⟩ ⟨[], "track", ".flac"⟩
      rfl (by decide)).1,
   (claim_C1_amended ⟨[⟨[], "track", ".m4a"⟩], []⟩
      ⟨0, true, some ⟨["audio"], some 8⟩, true, true⟩
      ⟨"convert_m4a", ⟨[], "track", ".m4a"⟩, some ⟨[], "track", ".flac"⟩,
        build_ffmpeg_cmd_convert_to_flac ⟨[], "track", ".m4a"⟩
          ⟨[], "track", ".flac"⟩, "m4a→flac"⟩ ⟨[], "track", ".flac"⟩
      rfl (by decide)).2.1 rfl⟩

/-- Counterexample to C1 as stated: when the post-verification `os.remove`
of the source fails, `safe_remove` only warns; the outcome is Success ("OK")
yet the source file still exists on disk, and the destination exists and
passes verification while the source was not deleted. -/
theorem claim_C1_counterexample :
    (execStep ⟨[⟨[], "track", ".m4a"⟩], []⟩ false
        ⟨0, true, some ⟨["audio"], some 8⟩, false, true⟩
        ⟨"convert_m4a", ⟨[], "track", ".m4a"⟩, some ⟨[], "track", ".flac"⟩,
          build_ffmpeg_cmd_convert_to_flac ⟨[], "track", ".m4a"⟩
            ⟨[], "track", ".flac"⟩, "m4a→flac"⟩).row.status = "OK" ∧
    (⟨[], "track", ".m4a"⟩ : PyPath) ∈
      (execStep ⟨[⟨[], "track", ".m4a"⟩], []⟩ false
        ⟨0, true, some ⟨["audio"], some 8⟩, false, true⟩
        ⟨"convert_m4a", ⟨[], "track", ".m4a"⟩, some ⟨[], "track", ".flac"⟩,
          build_ffmpeg_cmd_convert_to_flac ⟨[], "track", ".m4a"⟩
            ⟨[], "track", ".flac"⟩, "m4a→flac"⟩).fs.files ∧
    verify_audio_ok (some ⟨["audio"], some 8⟩) = true := by
  refine ⟨?_, ?_, by decide⟩ <;> decide

/-! ### Claim C2 -/

/-- The batch never aborts: every action of run kind contributes exactly one
log row, whatever its outcome. -/
theorem apply_actions_log_length (preview : Bool) (envs : Nat → StepEnv) :
    ∀ (acts : List Action) (st : BatchState),
      (apply_actions preview envs acts st).log.length =
        st.log.length + (acts.filter (fun x => isRunKind x.kind)).length := by
  intro acts
  induction acts with
  | nil => intro st; simp [apply_actions]
  | cons a rest ih =>
    intro st
    unfold apply_actions
    by_cases h : isRunKind a.kind = true
    · rw [if_pos h, ih]
      simp [List.filter_cons, h]
      omega
    · rw [if_neg h, ih]
      simp [List.filter_cons, h]

/-- After an error outcome the destination no longer exists, provided the
cleanup `os.remove` succeeded (or no output had appeared at all). -/
theorem cleanup_removes (fs : FS) (t : PyPath) (b : Bool) :
    fsExists (if b then
        safe_remove (addFile fs (unique_target_path fs t))
          (unique_target_path fs t) true
      else fs) (unique_target_path fs t) = false := by
  have hfree := unique_target_path_not_exists fs t
  rw [fsExists_false_iff] at hfree
  cases b
  · simpa using unique_target_path_not_exists fs t
  · rw [if_pos rfl, fsExists_false_iff]
    unfold safe_remove
    rw [if_pos rfl]
    refine ⟨?_, ?_⟩
    · rw [mem_files_removeFile]
      simp
    · rw [dirs_removeFile, dirs_addFile]
      exact hfree.2

/-- C2 as amended: a non-zero exit code yields the "ERROR" outcome and a
zero exit code with a missing or failed-verification output yields the
distinct "ERROR: verify" outcome; in both cases the source is retained, the
error count grows by one and the success count does not, removal of any
partial output is attempted and succeeds whenever the OS delete succeeds,
the action is not retried, and the engine continues with the remaining
actions, writing exactly one row for this action. -/
theorem claim_C2_amended (fs : FS) (env : StepEnv) (a : Action) (t : PyPath)
    (hdst : a.dst = some t) (hsrc : a.src ∈ fs.files) :
    (env.rc ≠ 0 →
      (execStep fs false env a).row.status = "ERROR" ∧
      (execStep fs false env a).err = 1 ∧ (execStep fs false env a).succ = 0 ∧
      a.src ∈ (execStep fs false env a).fs.files ∧
      (env.dstRemoveOk = true →
        fsExists (execStep fs false env a).fs (unique_target_path fs t) = false)) ∧
    (env.rc = 0 →
      (env.outCreated = false ∨ verify_audio_ok env.probe = false) →
      (execStep fs false env a).row.status = "ERROR: verify" ∧
      (execStep fs false env a).err = 1 ∧ (execStep fs false env a).succ = 0 ∧
      a.src ∈ (execStep fs false env a).fs.files ∧
      (env.dstRemoveOk = true →
        fsExists (execStep fs false env a).fs (unique_target_path fs t) = false)) ∧
    (("ERROR" : String) ≠ "ERROR: verify" ∧ ("ERROR" : String) ≠ "OK" ∧
      ("ERROR: verify" : String) ≠ "OK") ∧
    (∀ (envs : Nat → StepEnv) (rest : List Action) (st : BatchState),
      isRunKind a.kind = true →
      (apply_actions false envs (a :: rest) st).log.length =
        st.log.length + 1 + (rest.filter (fun x => isRunKind x.kind)).length) := by
  have hne : unique_target_path fs t ≠ a.src := unique_target_path_ne_existing hsrc
  have hmem : a.src ∈ (FS.files (if env.outCreated = true then
      safe_remove (addFile fs (unique_target_path fs t))
        (unique_target_path fs t) env.dstRemoveOk
    else fs)) := by
    by_cases hoc : env.outCreated = true
    · rw [if_pos hoc, mem_files_safe_remove, mem_files_addFile]
      exact ⟨Or.inr hsrc, fun _ h => hne (h ▸ rfl)⟩
    · rw [if_neg hoc]
      exact hsrc
  refine ⟨fun hrc => ?_, fun hrc hfail => ?_, by refine ⟨?_, ?_, ?_⟩ <;> decide,
    fun envs rest st hk => ?_⟩
  · rw [execStep_error fs env a t hdst hrc]
    exact ⟨rfl, rfl, rfl, hmem,
      fun hok => by rw [hok]; exact cleanup_removes fs t env.outCreated⟩
  · rw [execStep_vfail fs env a t hdst hrc hfail]
    exact ⟨rfl, rfl, rfl, hmem,
      fun hok => by rw [hok]; exact cleanup_removes fs t env.outCreated⟩
  · rw [apply_actions_log_length]
    simp [List.filter_cons, hk]
    omega

/-- Witness for the amended C2 at a concrete failing transcode (exit code 1,
partial output appeared, cleanup delete succeeds). -/
theorem claim_C2_amended_witness :
    (execStep ⟨[⟨[], "track", ".m4a"⟩], []⟩ false
        ⟨1, true, none, true, true⟩
        ⟨"convert_m4a", ⟨[], "track", ".m4a"⟩, some ⟨[], "track", ".flac"⟩,
          build_ffmpeg_cmd_convert_to_flac ⟨[], "track", ".m4a"⟩
            ⟨[], "track", ".flac"⟩, "m4a→flac"⟩).row.status = "ERROR" ∧
    (execStep ⟨[⟨[], "track", ".m4a"⟩], []⟩ false
        ⟨1, true, none, true, true⟩
        ⟨"convert_m4a", ⟨[], "track", ".m4a"⟩, some ⟨[], "track", ".flac"⟩,
          build_ffmpeg_cmd_convert_to_flac ⟨[], "track", ".m4a"⟩
            ⟨[], "track", ".flac"⟩, "m4a→flac"⟩).err = 1 ∧
    (execStep ⟨[⟨[], "track", ".m4a"⟩], []⟩ false
        ⟨1, true, none, true, true⟩
        ⟨"convert_m4a", ⟨[], "track", ".m4a"⟩, some ⟨[], "track", ".flac"⟩,
          build_ffmpeg_cmd_convert_to_flac ⟨[], "track", ".m4a"⟩
            ⟨[], "track", ".flac"⟩, "m4a→flac"⟩).succ = 0 ∧
    (⟨[], "track", ".m4a"⟩ : PyPath) ∈
      (execStep ⟨[⟨[], "track", ".m4a"⟩], []⟩ false
        ⟨1, true, none, true, true⟩
        ⟨"convert_m4a", ⟨[], "track", ".m4a"⟩, some ⟨[], "track", ".flac"⟩,
          build_ffmpeg_cmd_convert_to_flac ⟨[], "track", ".m4a"⟩
            ⟨[], "track", ".flac"⟩, "m4a→flac"⟩).fs.files ∧
    (true = true →
      fsExists (execStep ⟨[⟨[], "track", ".m4a"⟩], []⟩ false
          ⟨1, true, none, true, true⟩
          ⟨"convert_m4a", ⟨[], "track", ".m4a"⟩, some ⟨[], "track", ".flac"⟩,
            build_ffmpeg_cmd_convert_to_flac ⟨[], "track", ".m4a"⟩
              ⟨[], "track", ".flac"⟩, "m4a→flac"⟩).fs
        (unique_target_path ⟨[⟨[], "track", ".m4a"⟩], []⟩
          ⟨[], "track", ".flac"⟩) = false) :=
  (claim_C2_amended ⟨[⟨[], "track", ".m4a"⟩], []⟩ ⟨1, true, none, true, true⟩
    ⟨"convert_m4a", ⟨[], "track", ".m4a"⟩, some ⟨[], "track", ".flac"⟩,
      build_ffmpeg_cmd_convert_to_flac ⟨[], "track", ".m4a"⟩
        ⟨[], "track", ".flac"⟩, "m4a→flac"⟩ ⟨[], "track", ".flac"⟩
    rfl (by decide)).1 (by decide)

/-- Counterexample to C2 as stated: when the cleanup `os.remove` of the
partial output fails (it is caught and only warned), the action concludes
with outcome "ERROR" while the partial output is still present at the
destination, contradicting "any partial output at the destination is removed
before the action concludes". -/
theorem claim_C2_counterexample :
    (execStep ⟨[⟨[], "track", ".m4a"⟩], []⟩ false
        ⟨1, true, none, true, false⟩
        ⟨"convert_m4a", ⟨[], "track", ".m4a"⟩, some ⟨[], "track", ".flac"⟩,
          build_ffmpeg_cmd_convert_to_flac ⟨[], "track", ".m4a"⟩
            ⟨[], "track", ".flac"⟩, "m4a→flac"⟩).row.status = "ERROR" ∧
    fsExists (execStep ⟨[⟨[], "track", ".m4a"⟩], []⟩ false
        ⟨1, true, none, true, false⟩
        ⟨"convert_m4a", ⟨[], "track", ".m4a"⟩, some ⟨[], "track", ".flac"⟩,
          build_ffmpeg_cmd_convert_to_flac ⟨[], "track", ".m4a"⟩
            ⟨[], "track", ".flac"⟩, "m4a→flac"⟩).fs
      ⟨[], "track", ".flac"⟩ = true := by
  refine ⟨?_, ?_⟩ <;> decide

/-! ### Claim C8 -/

/-- Preview mode leaves the whole batch state unchanged except for the log:
one PREVIEW row per run-kind action, no filesystem change, no invocation. -/
theorem apply_actions_preview (envs : Nat → StepEnv) :
    ∀ (acts : List Action) (st : BatchState),
      apply_actions true envs acts st =
        ⟨st.fs,
         st.log ++ (acts.filter (fun a => isRunKind a.kind)).map
           (fun a => ⟨a.kind, a.src, a.dst.map (unique_target_path st.fs),
             "PREVIEW", a.note⟩),
         st.success, st.error,
         st.idx + (acts.filter (fun a => isRunKind a.kind)).length,
         st.invoked⟩ := by
  intro acts
  induction acts with
  | nil => intro st; simp [apply_actions]
  | cons a rest ih =>
    intro st
    unfold apply_actions
    by_cases h : isRunKind a.kind = true
    · rw [if_pos h]
      have hstep : execStep st.fs true (envs st.idx) a =
          ⟨st.fs, ⟨a.kind, a.src, a.dst.map (unique_target_path st.fs),
            "PREVIEW", a.note⟩, 0, 0, false, []⟩ := rfl
      rw [hstep, ih]
      simp only [List.filter_cons, h, if_true, List.map_cons, List.length_cons,
        BatchState.mk.injEq]
      refine ⟨by simp, by simp [List.append_assoc], by simp, by simp, by omega,
        by simp⟩
    · rw [if_neg h, ih]
      simp [List.filter_cons, h]

/-- C8: in Preview mode every planned (run-kind) action produces exactly one
audit row with status "PREVIEW"; the filesystem is untouched (so no
destination is created and no source deleted or modified), the transcoder is
never invoked, and no success or error is counted. -/
theorem claim_C8 (envs : Nat → StepEnv) (acts : List Action) (fs : FS)
    (hkinds : ∀ a ∈ acts, isRunKind a.kind = true) :
    (apply_actions true envs acts ⟨fs, [], 0, 0, 0, 0⟩).fs = fs ∧
    (apply_actions true envs acts ⟨fs, [], 0, 0, 0, 0⟩).log =
      acts.map (fun a => ⟨a.kind, a.src, a.dst.map (unique_target_path fs),
        "PREVIEW", a.note⟩) ∧
    (apply_actions true envs acts ⟨fs, [], 0, 0, 0, 0⟩).log.length = acts.length ∧
    (∀ r ∈ (apply_actions true envs acts ⟨fs, [], 0, 0, 0, 0⟩).log,
      r.status = "PREVIEW") ∧
    (apply_actions true envs acts ⟨fs, [], 0, 0, 0, 0⟩).success = 0 ∧
    (apply_actions true envs acts ⟨fs, [], 0, 0, 0, 0⟩).error = 0 ∧
    (apply_actions true envs acts ⟨fs, [], 0, 0, 0, 0⟩).invoked = 0 := by
  have hfilter : acts.filter (fun a => isRunKind a.kind) = acts :=
    List.filter_eq_self.mpr (fun a ha => hkinds a ha)
  rw [apply_actions_preview]
  refine ⟨rfl, by simp [hfilter], by simp [hfilter], ?_, rfl, rfl, rfl⟩
  intro r hr
  simp only [hfilter, List.nil_append] at hr
  obtain ⟨a, _, rfl⟩ := List.mem_map.mp hr
  rfl

/-- Witness for C8: one concrete planned Convert action in preview mode. -/
theorem claim_C8_witness :
    (apply_actions true (fun _ => ⟨0, false, none, true, true⟩)
      [⟨"convert_m4a", ⟨[], "track", ".m4a"⟩, some ⟨[], "track", ".flac"⟩,
        build_ffmpeg_cmd_convert_to_flac ⟨[], "track", ".m4a"⟩
          ⟨[], "track", ".flac"⟩, "m4a→flac"⟩]
      ⟨⟨[⟨[], "track", ".m4a"⟩], []⟩, [], 0, 0, 0, 0⟩).fs =
        ⟨[⟨[], "track", ".m4a"⟩], []⟩ ∧
    (apply_actions true (fun _ => ⟨0, false, none, true, true⟩)
      [⟨"convert_m4a", ⟨[], "track", ".m4a"⟩, some ⟨[], "track", ".flac"⟩,
        build_ffmpeg_cmd_convert_to_flac ⟨[], "track", ".m4a"⟩
          ⟨[], "track", ".flac"⟩, "m4a→flac"⟩]
      ⟨⟨[⟨[], "track", ".m4a"⟩], []⟩, [], 0, 0, 0, 0⟩).log =
      [⟨"convert_m4a", ⟨[], "track", ".m4a"⟩, some ⟨[], "track", ".flac"⟩,
        build_ffmpeg_cmd_convert_to_flac ⟨[], "track", ".m4a"⟩
          ⟨[], "track", ".flac"⟩, "m4a→flac"⟩].map
        (fun a : Action => (⟨a.kind, a.src,
          a.dst.map (unique_target_path ⟨[⟨[], "track", ".m4a"⟩], []⟩),
          "PREVIEW", a.note⟩ : LogRow)) ∧
    (apply_actions true (fun _ => ⟨0, false, none, true, true⟩)
      [⟨"convert_m4a", ⟨[], "track", ".m4a"⟩, some ⟨[], "track", ".flac"⟩,
        build_ffmpeg_cmd_convert_to_flac ⟨[], "track", ".m4a"⟩
          ⟨[], "track", ".flac"⟩, "m4a→flac"⟩]
      ⟨⟨[⟨[], "track", ".m4a"⟩], []⟩, [], 0, 0, 0, 0⟩).log.length = 1 ∧
    (∀ r ∈ (apply_actions true (fun _ => ⟨0, false, none, true, true⟩)
      [⟨"convert_m4a", ⟨[], "track", ".m4a"⟩, some ⟨[], "track", ".flac"⟩,
        build_ffmpeg_cmd_convert_to_flac ⟨[], "track", ".m4a"⟩
          ⟨[], "track", ".flac"⟩, "m4a→flac"⟩]
      ⟨⟨[⟨[], "track", ".m4a"⟩], []⟩, [], 0, 0, 0, 0⟩).log,
      r.status = "PREVIEW") ∧
    (apply_actions true (fun _ => ⟨0, false, none, true, true⟩)
      [⟨"convert_m4a", ⟨[], "track", ".m4a"⟩, some ⟨[], "track", ".flac"⟩,
        build_ffmpeg_cmd_convert_to_flac ⟨[], "track", ".m4a"⟩
          ⟨[], "track", ".flac"⟩, "m4a→flac"⟩]
      ⟨⟨[⟨[], "track", ".m4a"⟩], []⟩, [], 0, 0, 0, 0⟩).success = 0 ∧
    (apply_actions true (fun _ => ⟨0, false, none, true, true⟩)
      [⟨"convert_m4a", ⟨[], "track", ".m4a"⟩, some ⟨[], "track", ".flac"⟩,
        build_ffmpeg_cmd_convert_to_flac ⟨[], "track", ".m4a"⟩
          ⟨[], "track", ".flac"⟩, "m4a→flac"⟩]
      ⟨⟨[⟨[], "track", ".m4a"⟩], []⟩, [], 0, 0, 0, 0⟩).error = 0 ∧
    (apply_actions true (fun _ => ⟨0, false, none, true, true⟩)
      [⟨"convert_m4a", ⟨[], "track", ".m4a"⟩, some ⟨[], "track", ".flac"⟩,
        build_ffmpeg_cmd_convert_to_flac ⟨[], "track", ".m4a"⟩
          ⟨[], "track", ".flac"⟩, "m4a→flac"⟩]
      ⟨⟨[⟨[], "track", ".m4a"⟩], []⟩, [], 0, 0, 0, 0⟩).invoked = 0 :=
  claim_C8 (fun _ => ⟨0, false, none, true, true⟩)
    [⟨"convert_m4a", ⟨[], "track", ".m4a"⟩, some ⟨[], "track", ".flac"⟩,
      build_ffmpeg_cmd_convert_to_flac ⟨[], "track", ".m4a"⟩
        ⟨[], "track", ".flac"⟩, "m4a→flac"⟩]
    ⟨[⟨[], "track", ".m4a"⟩], []⟩ (by decide)

/-! ### Claim C9 -/

/-- C9: the process exit code is 2 exactly when a required external tool is
missing (and then nothing is planned or executed), 1 exactly when the tools
are present but the report is missing/unreadable or the root is not an
existing directory, and 0 exactly when all pre-flight checks pass — in which
case the run always completes with some success/error counts, regardless of
per-file outcomes. -/
theorem claim_C9 (env : MainEnv) (applyFlag : Bool) :
    ((mainRun env applyFlag).1 = 2 ↔
      require_tools env.which ["ffmpeg", "ffprobe"] ≠ []) ∧
    (require_tools env.which ["ffmpeg", "ffprobe"] ≠ [] →
      mainRun env applyFlag = (2, none)) ∧
    ((mainRun env applyFlag).1 = 1 ↔
      require_tools env.which ["ffmpeg", "ffprobe"] = [] ∧
      (env.xlsxExists = false ∨ env.rootExists = false ∨ env.rootIsDir = false ∨
       env.readOk = false)) ∧
    ((mainRun env applyFlag).1 = 0 ↔
      require_tools env.which ["ffmpeg", "ffprobe"] = [] ∧
      env.xlsxExists = true ∧ env.rootExists = true ∧ env.rootIsDir = true ∧
      env.readOk = true) ∧
    (require_tools env.which ["ffmpeg", "ffprobe"] = [] → env.xlsxExists = true →
      env.rootExists = true → env.rootIsDir = true → env.readOk = true →
      ∃ counts, mainRun env applyFlag = (0, some counts)) := by
  by_cases h1 : require_tools env.which ["ffmpeg", "ffprobe"] = []
  · cases hx : env.xlsxExists <;> cases hre : env.rootExists <;>
      cases hrd : env.rootIsDir <;> cases hro : env.readOk <;>
      simp [mainRun, h1, hx, hre, hrd, hro]
  · simp [mainRun, h1]

/-- Witness for C9: with both tools absent the run aborts with exit code 2
before any planning. -/
theorem claim_C9_witness :
    mainRun ⟨fun _ => none, true, true, true, true, [], [], ⟨[], []⟩, ⟨id⟩,
      fun _ => true, fun _ => ⟨0, false, none, true, true⟩⟩ true = (2, none) :=
  (claim_C9 ⟨fun _ => none, true, true, true, true, [], [], ⟨[], []⟩, ⟨id⟩,
      fun _ => true, fun _ => ⟨0, false, none, true, true⟩⟩ true).2.1
    (by decide)

/-! ### Claim C7 -/

/-- C7: resolution tries exactly two routes in order — the candidate
interpreted against the root, accepted when it is an existing regular file
whose real path lies under the root's real path; otherwise the bare final
name component directly inside the root, accepted when it is an existing
regular file; otherwise the candidate is NOT FOUND with no action, and every
accepted path is one of those two (no recursive search). -/
theorem claim_C7 (fs : FS) (env : ResolveEnv) (dok : PyPath → Bool)
    (root : List String) (raw : String) :
    (fsExists fs (normalize_to_root raw root) = true →
     isFile fs (normalize_to_root raw root) = true →
     is_under env (normalize_to_root raw root) root = true →
      resolve_candidate fs env root raw = some (normalize_to_root raw root)) ∧
    (¬(fsExists fs (normalize_to_root raw root) = true ∧
       isFile fs (normalize_to_root raw root) = true ∧
       is_under env (normalize_to_root raw root) root = true) →
     fsExists fs (mkPath (root ++ [pyNameOf raw])) = true →
     isFile fs (mkPath (root ++ [pyNameOf raw])) = true →
      resolve_candidate fs env root raw = some (mkPath (root ++ [pyNameOf raw]))) ∧
    (¬(fsExists fs (normalize_to_root raw root) = true ∧
       isFile fs (normalize_to_root raw root) = true ∧
       is_under env (normalize_to_root raw root) root = true) →
     ¬(fsExists fs (mkPath (root ++ [pyNameOf raw])) = true ∧
       isFile fs (mkPath (root ++ [pyNameOf raw])) = true) →
      resolve_candidate fs env root raw = none ∧
      plan_one fs env dok root raw = ((raw, none, RowStatus.notFound), [])) ∧
    (∀ r, resolve_candidate fs env root raw = some r →
      r = normalize_to_root raw root ∨ r = mkPath (root ++ [pyNameOf raw])) := by
  refine ⟨fun he hf hu => ?_, fun hno he hf => ?_, fun hno hno2 => ?_,
    fun r hr => ?_⟩
  · unfold resolve_candidate
    rw [if_pos (by simp [he, hf, hu])]
  · unfold resolve_candidate
    rw [if_neg (by simp only [Bool.and_eq_true]; tauto), if_pos (by simp [he, hf])]
  · have hres : resolve_candidate fs env root raw = none := by
      unfold resolve_candidate
      rw [if_neg (by simp only [Bool.and_eq_true]; tauto),
        if_neg (by simp only [Bool.and_eq_true]; tauto)]
    refine ⟨hres, ?_⟩
    unfold plan_one
    rw [hres]
  · unfold resolve_candidate at hr
    dsimp only at hr
    split at hr
    · exact Or.inl (by injection hr with h; exact h.symm)
    · split at hr
      · exact Or.inr (by injection hr with h; exact h.symm)
      · cases hr

/-- Witness for C7: a candidate whose direct interpretation misses but whose
bare filename exists directly inside the root (route 2). -/
theorem claim_C7_witness :
    resolve_candidate ⟨[⟨["r"], "track", ".m4a"⟩], []⟩ ⟨id⟩ ["r"]
      "Music/track.m4a" = some (mkPath (["r"] ++ [pyNameOf "Music/track.m4a"])) :=
  (claim_C7 ⟨[⟨["r"], "track", ".m4a"⟩], []⟩ ⟨id⟩ (fun _ => true) ["r"]
    "Music/track.m4a").2.1 (by decide) (by decide) (by decide)

/-! ### String lemmas for claim C10 -/

theorem lowerChar_dot {c : Char} : lowerChar c = '.' ↔ c = '.' := by
  constructor
  · intro h
    unfold lowerChar at h
    split at h <;> simp_all
  · rintro rfl
    decide

theorem lowerChar_slash {c : Char} : lowerChar c = '/' ↔ c = '/' := by
  constructor
  · intro h
    unfold lowerChar at h
    split at h <;> simp_all
  · rintro rfl
    decide

theorem splitChar_ne_nil (sep : Char) (s : List Char) : splitChar sep s ≠ [] := by
  cases s with
  | nil => simp [splitChar]
  | cons c rest =>
    unfold splitChar
    split
    · simp
    · split <;> simp

theorem splitChar_of_not_mem {sep : Char} : ∀ {s : List Char}, sep ∉ s →
    splitChar sep s = [s] := by
  intro s
  induction s with
  | nil => intro _; rfl
  | cons c rest ih =>
    intro h
    have hc : ¬(c = sep) := fun hc => h (by simp [hc])
    have hrest : sep ∉ rest := fun hr => h (List.mem_cons_of_mem _ hr)
    unfold splitChar
    rw [if_neg hc, ih hrest]

theorem splitChar_of_mem {sep : Char} : ∀ {s : List Char}, sep ∈ s →
    ∃ g gs, splitChar sep s = g :: gs ∧ gs ≠ [] := by
  intro s
  induction s with
  | nil => intro h; cases h
  | cons c rest ih =>
    intro h
    unfold splitChar
    by_cases hc : c = sep
    · rw [if_pos hc]
      exact ⟨[], splitChar sep rest, rfl, splitChar_ne_nil sep rest⟩
    · rw [if_neg hc]
      have hrest : sep ∈ rest := by
        rcases List.mem_cons.mp h with h' | h'
        · exact absurd h'.symm hc
        · exact h'
      obtain ⟨g, gs, heq, hgs⟩ := ih hrest
      rw [heq]
      exact ⟨c :: g, gs, rfl, hgs⟩

theorem getLast?_cons_of_ne_nil {α : Type} (x : α) {l : List α} (h : l ≠ []) :
    (x :: l).getLast? = l.getLast? := by
  cases l with
  | nil => exact absurd rfl h
  | cons y t => rfl

/-- The last group of a character split is what follows the last separator. -/
theorem splitChar_getLast (sep : Char) : ∀ s : List Char,
    (splitChar sep s).getLast? =
      some ((s.reverse.takeWhile (fun c => c ≠ sep)).reverse) := by
  intro s
  induction s with
  | nil => rfl
  | cons c rest ih =>
    unfold splitChar
    by_cases hc : c = sep
    · rw [if_pos hc,
        getLast?_cons_of_ne_nil _ (splitChar_ne_nil sep rest), ih]
      subst hc
      rw [List.reverse_cons, List.takeWhile_append]
      split
      · rename_i hlen
        have : rest.reverse.takeWhile (fun x => x ≠ c) = rest.reverse :=
          ( List.takeWhile_prefix _).eq_of_length hlen
        rw [this]
        simp
      · rfl
    · rw [if_neg hc]
      by_cases hmem : sep ∈ rest
      · obtain ⟨g, gs, heq, hgs⟩ := splitChar_of_mem hmem
        rw [heq, getLast?_cons_of_ne_nil _ hgs, ← getLast?_cons_of_ne_nil g hgs,
          ← heq, ih, List.reverse_cons, List.takeWhile_append]
        split
        · rename_i hlen
          exfalso
          have : rest.reverse.takeWhile (fun x => x ≠ sep) = rest.reverse :=
            ( List.takeWhile_prefix _).eq_of_length hlen
          have hmem' : sep ∈ rest.reverse := by simpa using hmem
          have := List.mem_takeWhile_imp (this ▸ hmem')
          simp at this
        · rfl
      · rw [splitChar_of_not_mem hmem]
        have hall : ∀ x ∈ rest.reverse, (fun y => decide (y ≠ sep)) x = true := by
          intro x hx
          simp only [decide_eq_true_eq]
          intro hxe
          exact hmem (by simpa [hxe] using hx)
        rw [List.reverse_cons, List.takeWhile_append_of_pos hall]
        simp [hc]

/-- If a list ends with a separator-free non-empty tail, so does the text
after its last separator. -/
theorem afterLastSep_suffix (sep : Char) (pre tail : List Char)
    (hsep : ∀ x ∈ tail, x ≠ sep) :
    ∃ q, (((pre ++ tail).reverse.takeWhile (fun c => c ≠ sep)).reverse) =
      q ++ tail := by
  have hall : ∀ x ∈ tail.reverse, (fun y => decide (y ≠ sep)) x = true := by
    intro x hx
    simp only [decide_eq_true_eq]
    exact hsep x (by simpa using hx)
  rw [List.reverse_append, List.takeWhile_append_of_pos hall, List.reverse_append,
    List.reverse_reverse]
  exact ⟨_, rfl⟩

/-- Filtering keeps the last element when it satisfies the predicate. -/
theorem filter_getLast? {α : Type} (p : α → Bool) : ∀ (l : List α) (x : α),
    l.getLast? = some x → p x = true → (l.filter p).getLast? = some x := by
  intro l
  induction l with
  | nil => intro x h; cases h
  | cons a t ih =>
    intro x h hp
    cases t with
    | nil =>
      simp only [List.getLast?_singleton, Option.some.injEq] at h
      subst h
      simp [List.filter_cons, hp]
    | cons b t' =>
      rw [getLast?_cons_of_ne_nil _ (by simp)] at h
      have htail := ih x h hp
      have hne : (List.filter p (b :: t')) ≠ [] := by
        intro hnil
        rw [hnil] at htail
        cases htail
      rw [List.filter_cons]
      split
      · rw [getLast?_cons_of_ne_nil _ hne]
        exact htail
      · exact htail

theorem dropWhile_head_not {α : Type} (p : α → Bool) : ∀ (l : List α) (c : α),
    (l.dropWhile p).head? = some c → p c = false := by
  intro l
  induction l with
  | nil => intro c h; cases h
  | cons a t ih =>
    intro c h
    rw [List.dropWhile_cons] at h
    split at h
    · exact ih c h
    · rename_i hpa
      simp only [List.head?_cons, Option.some.injEq] at h
      subst h
      simpa using hpa

theorem dropWhile_idem {α : Type} (p : α → Bool) (l : List α) :
    (l.dropWhile p).dropWhile p = l.dropWhile p := by
  cases hd : (l.dropWhile p).head? with
  | none =>
    have : l.dropWhile p = [] := by
      cases h : l.dropWhile p
      · rfl
      · rw [h] at hd; cases hd
    rw [this]
    rfl
  | some c =>
    have hc := dropWhile_head_not p l c hd
    cases h : l.dropWhile p with
    | nil => rfl
    | cons y t =>
      rw [h] at hd
      simp only [List.head?_cons, Option.some.injEq] at hd
      subst hd
      rw [List.dropWhile_cons, hc]
      simp

/-- A suffix of a list shares its last element. -/
theorem getLast?_of_suffix {α : Type} {l₁ l₂ : List α} (h : l₁ <:+ l₂)
    (hne : l₁ ≠ []) : l₂.getLast? = l₁.getLast? := by
  obtain ⟨z, rfl⟩ := h
  rw [List.getLast?_append]
  cases hl : l₁.getLast? with
  | none => exact absurd (List.getLast?_eq_none_iff.mp hl) hne
  | some x => rfl

/-- Python `str.strip` is idempotent. -/
theorem strTrim_idem (s : String) : strTrim (strTrim s) = strTrim s := by
  unfold strTrim
  apply congrArg
  set w := Char.isWhitespace with hw
  set X := (s.data.dropWhile w).reverse with hX
  set Y := X.dropWhile w with hY
  show ((Y.reverse.dropWhile w).reverse.dropWhile w).reverse = Y.reverse
  have h1 : Y.reverse.dropWhile w = Y.reverse := by
    cases hd : Y.reverse.head? with
    | none =>
      have : Y.reverse = [] := by
        cases h : Y.reverse
        · rfl
        · rw [h] at hd; cases hd
      rw [this]
      rfl
    | some c =>
      have hcY : Y.getLast? = some c := by
        rw [List.getLast?_eq_head?_reverse]
        exact hd
      have hYX : Y.getLast? = X.getLast? := by
        refine (getLast?_of_suffix (List.dropWhile_suffix w) ?_).symm
        intro hnil
        rw [hY] at hcY
        rw [hnil] at hcY
        cases hcY
      have hXlast : X.getLast? = (s.data.dropWhile w).head? := by
        rw [hX, List.getLast?_reverse]
      have hc : w c = false := by
        apply dropWhile_head_not w s.data
        rw [← hXlast, ← hYX, hcY]
      cases h : Y.reverse with
      | nil => rfl
      | cons y t =>
        rw [h] at hd
        simp only [List.head?_cons, Option.some.injEq] at hd
        subst hd
        rw [List.dropWhile_cons, hc]
        simp
  rw [h1, List.reverse_reverse]
  rw [hY, dropWhile_idem]

/-- Shape of every recognized extension: a dot followed by a non-empty run
of characters that are neither dots nor separators, at least 4 characters in
total. -/
theorem music_ext_schema (ext : String) (he : ext ∈ MUSIC_EXTS) :
    ∃ er : List Char, ext.data = '.' :: er ∧ er ≠ [] ∧
      (∀ x ∈ er, x ≠ '.') ∧ (∀ x ∈ er, x ≠ '/') ∧ 4 ≤ ext.data.length := by
  simp only [MUSIC_EXTS, List.mem_cons, List.not_mem_nil, or_false] at he
  rcases he with rfl | rfl | rfl <;>
    exact ⟨_, rfl, by decide, by decide, by decide, by decide⟩

theorem dedupFirst_subset : ∀ (l seen : List String) (x : String),
    x ∈ dedupFirst l seen → x ∈ l := by
  intro l
  induction l with
  | nil => intro seen x h; cases h
  | cons a t ih =>
    intro seen x h
    unfold dedupFirst at h
    split at h
    · exact List.mem_cons_of_mem _ (ih _ _ h)
    · rcases List.mem_cons.mp h with rfl | h'
      · exact List.mem_cons_self _ _
      · exact List.mem_cons_of_mem _ (ih _ _ h')

/-- Every candidate the extractor produces ends (after lowering) with one of
the recognized music extensions. -/
theorem extract_endsWith (df : Df) (c : String)
    (hc : c ∈ extract_candidate_paths df) :
    MUSIC_EXTS.any (fun e => pyEndsWith (strLower c) e) = true := by
  unfold extract_candidate_paths at hc
  have hmem := dedupFirst_subset _ _ _ hc
  split at hmem
  · rw [List.mem_filterMap] at hmem
    obtain ⟨v, _, hv⟩ := hmem
    dsimp only at hv
    split at hv
    · rename_i hlook
      injection hv with hv
      subst hv
      unfold looks_like_path at hlook
      split at hlook
      · cases hlook
      · rw [strTrim_idem] at hlook
        exact hlook
    · cases hv
  · rw [List.mem_flatten] at hmem
    obtain ⟨inner, hinner, hcmem⟩ := hmem
    rw [List.mem_map] at hinner
    obtain ⟨col, _, rfl⟩ := hinner
    rw [List.mem_filterMap] at hcmem
    obtain ⟨v, _, hv⟩ := hcmem
    split at hv
    · rename_i hlook
      injection hv with hv
      subst hv
      unfold looks_like_path at hlook
      split at hlook
      · cases hlook
      · exact hlook
    · cases hv

/-- The `pathlib` stem/suffix split of a name that ends with a dot followed by
a non-empty dot-free run: the suffix is that run with its dot unless nothing
precedes the dot (a dotfile), whose suffix is empty. -/
theorem pySplitNameData_of_tail (q trest : List Char) (hts : trest ≠ [])
    (hnd : ∀ x ∈ trest, x ≠ '.') :
    pySplitNameData (q ++ '.' :: trest) =
      if q = [] then (q ++ '.' :: trest, []) else (q, '.' :: trest) := by
  have hrev : (q ++ '.' :: trest).reverse = trest.reverse ++ '.' :: q.reverse := by
    rw [List.reverse_append, List.reverse_cons]
    simp [List.append_assoc]
  have hall : ∀ x ∈ trest.reverse, (fun c => decide (c ≠ '.')) x = true := by
    intro x hx
    simp only [decide_eq_true_eq]
    exact hnd x (by simpa using hx)
  have htake : (q ++ '.' :: trest).reverse.takeWhile (fun c => c ≠ '.') =
      trest.reverse := by
    rw [hrev, List.takeWhile_append_of_pos hall, List.takeWhile_cons]
    simp
  have hdrop : (q ++ '.' :: trest).reverse.dropWhile (fun c => c ≠ '.') =
      '.' :: q.reverse := by
    rw [hrev, List.dropWhile_append_of_pos hall, List.dropWhile_cons]
    simp
  unfold pySplitNameData
  rw [htake, hdrop]
  dsimp only
  by_cases hq : q = []
  · subst hq
    rw [if_pos (Or.inl (by simp)), if_pos rfl]
  · rw [if_neg ?_, if_neg hq]
    · simp
    · push_neg
      exact ⟨by simpa using hq, by simpa using hts⟩

/-- The final name component of a candidate that ends (after lowering) with
a recognized extension: the component list is non-empty and the stem/suffix
split of the name is either "suffix lowers to the extension" or the dotfile
case "empty suffix, whole name lowers to the extension". -/
theorem name_dichotomy (raw ext : String) (he : ext ∈ MUSIC_EXTS)
    (hends : pyEndsWith (strLower raw) ext = true) :
    strComps raw ≠ [] ∧
    (strLower (pySplitName (pyNameOf raw)).2 = ext ∨
      ((pySplitName (pyNameOf raw)).2 = "" ∧
       strLower (pySplitName (pyNameOf raw)).1 = ext)) := by
  obtain ⟨er, hext, her, hdot, hslash, hlen⟩ := music_ext_schema ext he
  -- decompose the raw text: a prefix and a tail that lowers to the extension
  have hsuf : ext.data <:+ raw.data.map lowerChar := by
    unfold pyEndsWith at hends
    have : (strLower raw).data = raw.data.map lowerChar := rfl
    rw [this] at hends
    exact List.isSuffixOf_iff_suffix.mp hends
  obtain ⟨pre, hpre⟩ := hsuf
  have hsplit := List.map_eq_append_iff.mp hpre.symm
  obtain ⟨s, t, hraw, hmaps, hmapt⟩ := hsplit
  -- the tail starts with an actual dot and continues dot-free and slash-free
  rw [hext] at hmapt
  obtain ⟨t0, trest, rfl⟩ : ∃ t0 trest, t = t0 :: trest := by
    cases t with
    | nil => cases hmapt
    | cons a b => exact ⟨a, b, rfl⟩
  simp only [List.map_cons, List.cons.injEq] at hmapt
  obtain ⟨ht0, htrest⟩ := hmapt
  have ht0d : t0 = '.' := lowerChar_dot.mp ht0
  subst ht0d
  have htsne : trest ≠ [] := by
    intro h
    rw [h] at htrest
    exact her htrest.symm
  have htnd : ∀ x ∈ trest, x ≠ '.' := by
    intro x hx hxe
    have : lowerChar x ∈ er := htrest ▸ List.mem_map_of_mem lowerChar hx
    exact hdot _ this (by rw [hxe]; decide)
  have htns : ∀ x ∈ ('.' :: trest), x ≠ '/' := by
    intro x hx hxe
    rcases List.mem_cons.mp hx with rfl | hx'
    · cases hxe
    · have : lowerChar x ∈ er := htrest ▸ List.mem_map_of_mem lowerChar hx'
      exact hslash _ this (by rw [hxe]; decide)
  -- the last slash-group of the raw text ends with the tail
  obtain ⟨q, hlg⟩ := afterLastSep_suffix '/' s ('.' :: trest) htns
  have hlast := splitChar_getLast '/' raw.data
  rw [hraw, hlg] at hlast
  -- that group survives the component filter
  have hp : (fun (g : List Char) => decide (g ≠ [] ∧ g ≠ ['.'])) (q ++ '.' :: trest) =
      true := by
    simp only [decide_eq_true_eq]
    refine ⟨by simp, ?_⟩
    intro hone
    have hlen2 := congrArg List.length hone
    simp [List.length_append] at hlen2
    have hz : trest.length = 0 := by omega
    exact htsne (List.length_eq_zero.mp hz)
  have hfl := filter_getLast? (fun (g : List Char) => decide (g ≠ [] ∧ g ≠ ['.']))
    _ _ hlast hp
  have hcomps : (strComps raw).getLast? = some (⟨q ++ '.' :: trest⟩ : String) := by
    unfold strComps
    rw [List.getLast?_map, hraw, hfl]
    rfl
  have hne : strComps raw ≠ [] := by
    intro h
    rw [h] at hcomps
    cases hcomps
  have hname : pyNameOf raw = (⟨q ++ '.' :: trest⟩ : String) := by
    unfold pyNameOf
    rw [hcomps]
    rfl
  refine ⟨hne, ?_⟩
  have hsn : pySplitName (pyNameOf raw) =
      (if q = [] then ((⟨q ++ '.' :: trest⟩ : String), ("" : String))
       else ((⟨q⟩ : String), (⟨'.' :: trest⟩ : String))) := by
    rw [hname]
    unfold pySplitName
    show ((⟨(pySplitNameData (q ++ '.' :: trest)).1⟩ : String),
      (⟨(pySplitNameData (q ++ '.' :: trest)).2⟩ : String)) = _
    rw [pySplitNameData_of_tail q trest htsne htnd]
    by_cases hq : q = []
    · rw [if_pos hq, if_pos hq]
    · rw [if_neg hq, if_neg hq]
  by_cases hq : q = []
  · rw [hsn, if_pos hq]
    refine Or.inr ⟨rfl, ?_⟩
    subst hq
    show (⟨(List.map lowerChar ([] ++ '.' :: trest) : List Char)⟩ : String) = ext
    have : List.map lowerChar ('.' :: trest) = ext.data := by
      rw [hext, List.map_cons, htrest]
      rfl
    rw [List.nil_append, this]
  · rw [hsn, if_neg hq]
    refine Or.inl ?_
    show (⟨(List.map lowerChar ('.' :: trest) : List Char)⟩ : String) = ext
    have : List.map lowerChar ('.' :: trest) = ext.data := by
      rw [hext, List.map_cons, htrest]
      rfl
    rw [this]

/-- Both resolution routes parse the same final name component: the resolved
file's stem and suffix are the `pathlib` split of `Path(raw).name`. -/
theorem resolved_stem_suffix (fs : FS) (env : ResolveEnv) (root : List String)
    (raw : String) (r : PyPath)
    (hr : resolve_candidate fs env root raw = some r)
    (hcs : strComps raw ≠ []) :
    r.stem = (pySplitName (pyNameOf raw)).1 ∧
    r.suffix = (pySplitName (pyNameOf raw)).2 := by
  obtain ⟨nm, hnm⟩ : ∃ nm, (strComps raw).getLast? = some nm := by
    cases h : (strComps raw).getLast? with
    | none => exact absurd (List.getLast?_eq_none_iff.mp h) hcs
    | some x => exact ⟨x, rfl⟩
  have hnmname : pyNameOf raw = nm := by
    unfold pyNameOf
    rw [hnm]
    rfl
  have hmk : ∀ C : List String, C.getLast? = some nm →
      (mkPath C).stem = (pySplitName (pyNameOf raw)).1 ∧
      (mkPath C).suffix = (pySplitName (pyNameOf raw)).2 := by
    intro C hC
    unfold mkPath
    rw [hC, hnmname]
    exact ⟨rfl, rfl⟩
  have hroute : r = normalize_to_root raw root ∨
      r = mkPath (root ++ [pyNameOf raw]) := by
    unfold resolve_candidate at hr
    dsimp only at hr
    split at hr
    · exact Or.inl (by injection hr with h; exact h.symm)
    · split at hr
      · exact Or.inr (by injection hr with h; exact h.symm)
      · cases hr
  rcases hroute with rfl | rfl
  · unfold normalize_to_root
    split
    · exact hmk _ hnm
    · refine hmk _ ?_
      rw [List.getLast?_append, hnm]
      rfl
  · refine hmk _ ?_
    rw [hnmname]
    exact List.getLast?_concat _

/-! ### Claim C10 -/

/-- C10 as amended: every candidate string the extractor produces ends
(case-insensitively) with a recognized extension; consequently every
resolved file either has its suffix in the recognized set, or is a dotfile
whose entire name is the extension (Python reports an empty suffix for such
names), and only the latter reaches the skipped-unsupported-extension
outcome. -/
theorem claim_C10_amended (df : Df) (c : String)
    (hc : c ∈ extract_candidate_paths df)
    (fs : FS) (env : ResolveEnv) (root : List String) (r : PyPath)
    (hr : resolve_candidate fs env root c = some r) :
    MUSIC_EXTS.any (fun e => pyEndsWith (strLower c) e) = true ∧
    (strLower r.suffix ∈ MUSIC_EXTS ∨
      (r.suffix = "" ∧ strLower r.stem ∈ MUSIC_EXTS)) := by
  have hends := extract_endsWith df c hc
  refine ⟨hends, ?_⟩
  rw [List.any_eq_true] at hends
  obtain ⟨ext, hee, hpe⟩ := hends
  obtain ⟨hcs, hdic⟩ := name_dichotomy c ext hee hpe
  obtain ⟨hst, hsf⟩ := resolved_stem_suffix fs env root c r hr hcs
  rw [hst, hsf]
  rcases hdic with h | ⟨h1, h2⟩
  · exact Or.inl (h ▸ hee)
  · exact Or.inr ⟨h1, h2 ▸ hee⟩

/-- Witness for the amended C10: the extractor output "Music/track.m4a"
resolves (route 2) to a file whose suffix is recognized. -/
theorem claim_C10_amended_witness :
    MUSIC_EXTS.any (fun e => pyEndsWith (strLower "Music/track.m4a") e) = true ∧
    (strLower (PyPath.suffix ⟨["r"], "track", ".m4a"⟩) ∈ MUSIC_EXTS ∨
      (PyPath.suffix ⟨["r"], "track", ".m4a"⟩ = "" ∧
       strLower (PyPath.stem ⟨["r"], "track", ".m4a"⟩) ∈ MUSIC_EXTS)) :=
  claim_C10_amended ⟨["File Path"], [[some "Music/track.m4a"]]⟩ "Music/track.m4a"
    (by decide) ⟨[⟨["r"], "track", ".m4a"⟩], []⟩ ⟨id⟩ ["r"]
    ⟨["r"], "track", ".m4a"⟩ (by decide)

/-- Counterexample to C10 as stated: the candidate "ab/.m4a" passes the
extractor (it ends with ".m4a"), resolves to an existing file, but the
resolved name ".m4a" is a dotfile with an empty `pathlib` suffix, so the
pipeline reports the skipped-unsupported-extension outcome — which the claim
says is unreachable. -/
theorem claim_C10_counterexample :
    extract_candidate_paths ⟨["File Path"], [[some "ab/.m4a"]]⟩ = ["ab/.m4a"] ∧
    plan_one ⟨[⟨["r", "ab"], ".m4a", ""⟩], []⟩ ⟨id⟩ (fun _ => true) ["r"]
      "ab/.m4a" =
      (("ab/.m4a", some ⟨["r", "ab"], ".m4a", ""⟩, RowStatus.skipUnsupported ""),
       []) := by
  refine ⟨?_, ?_⟩ <;> decide
